import Mathlib

/-!
Verification of the reconciliation core of the git/Phabricator mirror.

The Go sources are embedded shallowly:

* package `comment` (the internal comment representation, its canonical
  JSON serialization, content hashing and the strict overlap predicate);
* package `review`, of which the repository carries two historical
  variants of the overlap/deduplication file: the strict variant
  (namespace `reviewV1`, requiring equal timestamps for resolved
  comments) and the relaxed variant (namespace `reviewV2`, checking
  resolved compatibility only for whole-revision comments);
* package `arcanist` (`LoadComments`, the transaction-log reconstructor,
  together with the mock collaborators of its test);
* package `mirror` (`mirrorRepoToReview`, the per-repository sync pass).

Machine details that the Go code delegates to libraries are modelled as
follows.  `encoding/json` marshalling is represented by a structured
JSON value (`Jval`); Go's `json.Marshal` renders such a value to bytes
injectively and deterministically, so comparing `Jval`s is equivalent to
comparing the marshalled bytes.  The SHA-1 digest of the marshalled
bytes is represented by an arbitrary function `hashFn : Jval → String`
passed explicitly to every definition that calls `Comment.Hash`;
theorems quantify over it, and collision-freedom is assumed only where
stated, as an explicit hypothesis.
-/

set_option maxHeartbeats 1000000
set_option linter.unnecessarySeqFocus false

namespace GitPhabMirror

/-- Structured JSON value, the model of a marshalled git note.
Arrays and floating-point numbers never occur in the payloads the
mirror serializes, so they are omitted from the universe, and the only
numeric field (`startLine`, a `uint32`) is non-negative, so numbers
carry a `Nat` (a note with a negative or fractional number would fail
Go's unmarshal into `uint32` and is outside the modelled universe). -/
inductive Jval : Type where
  | str (s : String)
  | num (n : Nat)
  | bool (b : Bool)
  | null
  | obj (fields : List (String × Jval))

/-- Helper for `stringsReplace`: copy characters, replacing every
leftmost non-overlapping occurrence of `old`; `skip` counts pattern
characters still to be consumed after a match. -/
def stringsReplaceAux (old new : List Char) : Nat → List Char → List Char
  | _ + 1, [] => []
  | skip + 1, _ :: rest => stringsReplaceAux old new skip rest
  | 0, [] => []
  | 0, c :: rest =>
    if old ≠ [] ∧ old.isPrefixOf (c :: rest) then
      new ++ stringsReplaceAux old new (old.length - 1) rest
    else c :: stringsReplaceAux old new 0 rest

/-- Go `strings.Replace(s, old, new, -1)` for a non-empty pattern:
replace every leftmost non-overlapping occurrence of `old` in `s` by
`new`.  (The call sites only use the pattern `"\n"`.) -/
def stringsReplace (s old new : String) : String :=
  String.mk (stringsReplaceAux old.toList new.toList 0 s.toList)

namespace comment

/-- `comment.Range` / `CommentRange`: `{startLine uint32}`. -/
structure CommentRange where
  StartLine : Nat
deriving DecidableEq

/-- `comment.Location` / `CommentLocation`: commit, path and optional range,
all `omitempty` except `startLine`. -/
structure CommentLocation where
  Commit : String
  Path : String
  Range : Option CommentRange
deriving DecidableEq

/-- `comment.Comment`: the internal representation of a review comment
(package `comment`, struct `Comment`). -/
structure Comment where
  Timestamp : String := ""
  Author : String := ""
  Parent : String := ""
  Location : Option CommentLocation := none
  Description : String := ""
  Resolved : Option Bool := none
deriving DecidableEq

/-- Go `strconv.ParseInt(s, 10, 64)` restricted to the call site in
`serialize`: an optional sign followed by at least one decimal digit.
The call site only reaches this for strings shorter than 10 characters,
which cannot overflow an `int64`, so overflow is not modelled. -/
def goParseInt (s : String) : Option Int :=
  let digitsVal : List Char → Option Nat := fun l =>
    if l = [] then none
    else l.foldl (fun acc c =>
      match acc with
      | none => none
      | some n => if c.isDigit then some (n * 10 + (c.toNat - 48)) else none) (some 0)
  match s.toList with
  | '+' :: rest => (digitsVal rest).map Int.ofNat
  | '-' :: rest => (digitsVal rest).map (fun n => -(n : Int))
  | l => (digitsVal l).map Int.ofNat

/-- Zero-pad a decimal rendering on the left to a minimum width. -/
def zeroPad (w : Nat) (s : String) : String :=
  if s.length < w then String.mk (List.replicate (w - s.length) '0') ++ s else s

/-- Go `fmt.Sprintf("%010d", t)`: decimal rendering zero-padded to a
minimum total width of 10 characters (the sign counts toward the width,
and zeros are inserted after it). -/
def sprintf010d (t : Int) : String :=
  if t < 0 then "-" ++ zeroPad 9 (toString (-t)) else zeroPad 10 (toString t)

/-- The timestamp normalization performed at the top of
`Comment.serialize`: timestamps shorter than 10 characters that parse as
decimal integers are reformatted with `%010d`; anything else is left
alone. -/
def padTs (s : String) : String :=
  if s.length < 10 then
    match goParseInt s with
    | some t => sprintf010d t
    | none => s
  else s

/-- `serialize`'s effect on the struct before marshalling. -/
def padTimestamp (c : Comment) : Comment :=
  { c with Timestamp := padTs c.Timestamp }

/-- `json.Marshal` of a `CommentLocation` (field order and `omitempty`
elision as in the Go struct tags). -/
def CommentLocation.toJson (l : CommentLocation) : Jval :=
  Jval.obj
    ((if l.Commit = "" then [] else [("commit", Jval.str l.Commit)]) ++
     (if l.Path = "" then [] else [("path", Jval.str l.Path)]) ++
     (match l.Range with
      | none => []
      | some r => [("range", Jval.obj [("startLine", Jval.num r.StartLine)])]))

/-- `json.Marshal` of a `Comment` (field order and `omitempty` elision
as in the Go struct tags). -/
def Comment.toJson (c : Comment) : Jval :=
  Jval.obj
    ((if c.Timestamp = "" then [] else [("timestamp", Jval.str c.Timestamp)]) ++
     (if c.Author = "" then [] else [("author", Jval.str c.Author)]) ++
     (if c.Parent = "" then [] else [("parent", Jval.str c.Parent)]) ++
     (match c.Location with
      | none => []
      | some l => [("location", l.toJson)]) ++
     (if c.Description = "" then [] else [("description", Jval.str c.Description)]) ++
     (match c.Resolved with
      | none => []
      | some b => [("resolved", Jval.bool b)]))

/-- `Comment.serialize`: normalize the timestamp, then marshal. -/
def Comment.serialize (c : Comment) : Jval :=
  (padTimestamp c).toJson

/-- `Comment.Write`: the serialized comment as a git note. -/
def Comment.Write (c : Comment) : Jval :=
  c.serialize

/-- `Comment.Hash`: the SHA-1 digest of the canonical serialized bytes,
with the digest function abstracted as `hashFn`. -/
def Comment.Hash (hashFn : Jval → String) (c : Comment) : String :=
  hashFn c.serialize

/-- Lookup of a JSON object key as `encoding/json` does it: when a key
occurs several times the last occurrence wins. -/
def jLookup : List (String × Jval) → String → Option Jval
  | [], _ => none
  | (k', v) :: rest, k =>
    match jLookup rest k with
    | some r => some r
    | none => if k' = k then some v else none

/-- `json.Unmarshal` into a `string` field: absent or `null` leaves the
zero value, a JSON string is taken verbatim, anything else is an error. -/
def jStr (fields : List (String × Jval)) (k : String) : Option String :=
  match jLookup fields k with
  | none => some ""
  | some Jval.null => some ""
  | some (Jval.str s) => some s
  | some _ => none

/-- `json.Unmarshal` into a `*bool` field. -/
def jBoolPtr (fields : List (String × Jval)) (k : String) : Option (Option Bool) :=
  match jLookup fields k with
  | none => some none
  | some Jval.null => some none
  | some (Jval.bool b) => some (some b)
  | some _ => none

/-- `json.Unmarshal` into the `startLine uint32` field (no `omitempty`):
absent or `null` leaves zero, and a number must fit in `uint32`. -/
def jUint32 (fields : List (String × Jval)) (k : String) : Option Nat :=
  match jLookup fields k with
  | none => some 0
  | some Jval.null => some 0
  | some (Jval.num n) => if n < 4294967296 then some n else none
  | some _ => none

/-- `json.Unmarshal` of a JSON value into a `*CommentRange`. -/
def jRangeVal : Jval → Option (Option CommentRange)
  | Jval.null => some none
  | Jval.obj g =>
    match jUint32 g "startLine" with
    | some n => some (some ⟨n⟩)
    | none => none
  | _ => none

/-- `json.Unmarshal` into the `*CommentRange` field. -/
def jRangePtr (fields : List (String × Jval)) (k : String) : Option (Option CommentRange) :=
  match jLookup fields k with
  | none => some none
  | some v => jRangeVal v

/-- `json.Unmarshal` of a JSON value into a `*CommentLocation`. -/
def jLocVal : Jval → Option (Option CommentLocation)
  | Jval.null => some none
  | Jval.obj g =>
    match jStr g "commit", jStr g "path", jRangePtr g "range" with
    | some commit, some path, some range => some (some ⟨commit, path, range⟩)
    | _, _, _ => none
  | _ => none

/-- `json.Unmarshal` into the `*CommentLocation` field. -/
def jLocPtr (fields : List (String × Jval)) (k : String) : Option (Option CommentLocation) :=
  match jLookup fields k with
  | none => some none
  | some v => jLocVal v

/-- The `uint32` typing invariant of a comment's line range: Go's
`startLine uint32` cannot exceed `2^32 - 1`. -/
def uint32Bounded (c : Comment) : Prop :=
  match c.Location with
  | some l =>
    match l.Range with
    | some r => r.StartLine < 4294967296
    | none => True
  | none => True

/-- `comment.Parse`: unmarshal a git note back into a `Comment`.
Unmarshalling into a struct requires a JSON object; unknown keys are
ignored and missing keys leave the zero value. -/
def Parse : Jval → Option Comment
  | Jval.obj fs =>
    match jStr fs "timestamp", jStr fs "author", jStr fs "parent",
          jLocPtr fs "location", jStr fs "description", jBoolPtr fs "resolved" with
    | some ts, some au, some pa, some lo, some de, some re =>
      some ⟨ts, au, pa, lo, de, re⟩
    | _, _, _, _, _, _ => none
  | _ => none

/-- `Comment.QuoteDescription`. -/
def Comment.QuoteDescription (c : Comment) : String :=
  c.Author ++ ":\n\n" ++ c.Description

/-- `Comment.isQuote` (tolerating the backslash-escaped-newline form on
either side). -/
def Comment.isQuote (c other : Comment) : Bool :=
  if c.Description = other.QuoteDescription then true
  else if c.Description = stringsReplace other.QuoteDescription "\n" "\\n" then true
  else if stringsReplace c.Description "\n" "\\n" = other.QuoteDescription then true
  else false

/-- `Comment.descriptionOverlaps`. -/
def Comment.descriptionOverlaps (c other : Comment) : Bool :=
  if c.Description = other.Description then true
  else if c.isQuote other then true
  else other.isQuote c

/-- `CommentLocation.Overlaps`. -/
def CommentLocation.Overlaps (l other : CommentLocation) : Bool :=
  if l.Commit ≠ other.Commit then false
  else if l.Path ≠ other.Path then false
  else match l.Range, other.Range with
    | none, none => true
    | none, some _ => false
    | some _, none => false
    | some r, some r' => r.StartLine = r'.StartLine

/-- `Comment.Overlaps` (package `comment`, the strict variant: resolved
comments must also agree on the timestamp). -/
def Comment.Overlaps (c other : Comment) : Bool :=
  if ¬ c.descriptionOverlaps other then false
  else if (c.Resolved.isSome ∧ other.Resolved.isNone) ∨
          (c.Resolved.isNone ∧ other.Resolved.isSome) then false
  else if c.Resolved.isSome ∧ other.Resolved.isSome then
    if c.Resolved ≠ other.Resolved ∨ c.Timestamp ≠ other.Timestamp then false
    else locCheck c other
  else locCheck c other
where
  locCheck (c other : Comment) : Bool :=
    match c.Location, other.Location with
    | none, none => true
    | none, some _ => false
    | some _, none => false
    | some l, some l' => l.Overlaps l'

end comment

/-- Association-list model of a Go `map` (insertion order retained,
lookup and update on the unique key occurrence). -/
def alookup {κ α : Type} [DecidableEq κ] : List (κ × α) → κ → Option α
  | [], _ => none
  | (k', v) :: rest, k => if k' = k then some v else alookup rest k

/-- Insert-or-replace on the association-list model of a Go `map`. -/
def aupdate {κ α : Type} [DecidableEq κ] : List (κ × α) → κ → α → List (κ × α)
  | [], k, v => [(k, v)]
  | (k', v') :: rest, k, v =>
    if k' = k then (k, v) :: rest else (k', v') :: aupdate rest k v

/-- `review.CommentThread` (from git-appraise): a comment, its content
hash, and its reply threads. -/
inductive CommentThread : Type where
  | mk (Hash : String) (Comment : comment.Comment) (Children : List CommentThread)

/-- The comment stored at the root of a thread. -/
def CommentThread.Comment : CommentThread → comment.Comment
  | .mk _ c _ => c

/-- The content hash stored at the root of a thread. -/
def CommentThread.Hash : CommentThread → String
  | .mk h _ _ => h

/-- The reply threads of a thread. -/
def CommentThread.Children : CommentThread → List CommentThread
  | .mk _ _ cs => cs

/-- The collection of comments carried by a forest of threads, children
first within each thread, in traversal order.  This is the reference
collection against which the thread-deduplication functions are
compared. -/
def flattenForest : List CommentThread → List comment.Comment
  | [] => []
  | CommentThread.mk _ c children :: rest =>
    flattenForest children ++ [c] ++ flattenForest rest

/-! ### Package `review`, strict variant

The first of the two versions of the overlap/deduplication file found in
the repository: resolved comments overlap only when their resolved
values and timestamps agree, the candidate collection is a map keyed by
content hash, and threads are flattened into that map first. -/

namespace reviewV1

open comment (Comment CommentLocation CommentRange)

/-- `CommentMap`: a map of comments indexed by their hashes. -/
def CommentMap : Type := List (String × Comment)

/-- `QuoteDescription`. -/
def QuoteDescription (c : Comment) : String :=
  c.Author ++ ":\n\n" ++ c.Description

/-- `isQuote`. -/
def isQuote (c other : Comment) : Bool :=
  if c.Description = QuoteDescription other then true
  else if c.Description = stringsReplace (QuoteDescription other) "\n" "\\n" then true
  else if stringsReplace c.Description "\n" "\\n" = QuoteDescription other then true
  else false

/-- `descriptionOverlaps`. -/
def descriptionOverlaps (c other : Comment) : Bool :=
  if c.Description = other.Description then true
  else if isQuote c other then true
  else isQuote other c

/-- `LocationOverlaps`. -/
def LocationOverlaps (l other : CommentLocation) : Bool :=
  if l.Commit ≠ other.Commit then false
  else if l.Path ≠ other.Path then false
  else match l.Range, other.Range with
    | none, none => true
    | none, some _ => false
    | some _, none => false
    | some r, some r' => r.StartLine = r'.StartLine

/-- `Overlaps`, strict variant: descriptions overlap, resolved bits are
both unset or both set with the same value and the same timestamp, and
the locations match. -/
def Overlaps (c other : Comment) : Bool :=
  if ¬ descriptionOverlaps c other then false
  else if (c.Resolved.isSome ∧ other.Resolved.isNone) ∨
          (c.Resolved.isNone ∧ other.Resolved.isSome) then false
  else if c.Resolved.isSome ∧ other.Resolved.isSome then
    if c.Resolved ≠ other.Resolved ∨ c.Timestamp ≠ other.Timestamp then false
    else locCheck c other
  else locCheck c other
where
  locCheck (c other : Comment) : Bool :=
    match c.Location, other.Location with
    | none, none => true
    | none, some _ => false
    | some _, none => false
    | some l, some l' => LocationOverlaps l l'

/-- `CommentMap.AddThreads`: record every thread comment under its hash,
recursing into children. -/
def CommentMap.AddThreads : CommentMap → List CommentThread → CommentMap
  | m, [] => m
  | m, CommentThread.mk h c children :: rest =>
    CommentMap.AddThreads (CommentMap.AddThreads (aupdate m h c) children) rest

/-- `CommentMap.FilterOverlapping`: keep the map entries that overlap no
excluded comment. -/
def CommentMap.FilterOverlapping (comments : CommentMap) (exclude : List Comment) : List Comment :=
  comments.foldl
    (fun filtered kc =>
      let passed := exclude.foldl (fun p e => if Overlaps e kc.2 then false else p) true
      if passed then filtered ++ [kc.2] else filtered)
    []

/-- `FilterOverlapping` on comment threads: flatten into a hash-keyed
map, then filter. -/
def FilterOverlapping (threads : List CommentThread) (exclude : List Comment) : List Comment :=
  CommentMap.FilterOverlapping (CommentMap.AddThreads [] threads) exclude

end reviewV1

/-! ### Package `review`, relaxed variant

The second version of the same file: the resolved bits are compared
without the timestamp, and only for whole-revision comments (no
location, or a location with an empty path); threads are filtered by
direct recursion, children first. -/

namespace reviewV2

open comment (Comment CommentLocation CommentRange)

/-- `QuoteDescription`. -/
def QuoteDescription (c : Comment) : String :=
  c.Author ++ ":\n\n" ++ c.Description

/-- `isQuote`. -/
def isQuote (c other : Comment) : Bool :=
  if c.Description = QuoteDescription other then true
  else if c.Description = stringsReplace (QuoteDescription other) "\n" "\\n" then true
  else if stringsReplace c.Description "\n" "\\n" = QuoteDescription other then true
  else false

/-- `descriptionOverlaps`. -/
def descriptionOverlaps (c other : Comment) : Bool :=
  if c.Description = other.Description then true
  else if isQuote c other then true
  else isQuote other c

/-- `LocationOverlaps`. -/
def LocationOverlaps (l other : CommentLocation) : Bool :=
  if l.Commit ≠ other.Commit then false
  else if l.Path ≠ other.Path then false
  else match l.Range, other.Range with
    | none, none => true
    | none, some _ => false
    | some _, none => false
    | some r, some r' => r.StartLine = r'.StartLine

/-- `resolvedOverlaps`: both unset, or both set with the same value. -/
def resolvedOverlaps (c other : Comment) : Bool :=
  if (c.Resolved.isSome ∧ other.Resolved.isNone) ∨
     (c.Resolved.isNone ∧ other.Resolved.isSome) then false
  else if c.Resolved.isSome ∧ other.Resolved.isSome then
    if c.Resolved ≠ other.Resolved then false else true
  else true

/-- `Overlaps`, relaxed variant: descriptions overlap and locations
match; the resolved bits are compared only when both comments are
whole-revision comments (no location, or an empty path). -/
def Overlaps (c other : Comment) : Bool :=
  if ¬ descriptionOverlaps c other then false
  else match c.Location, other.Location with
    | none, none => resolvedOverlaps c other
    | none, some _ => false
    | some _, none => false
    | some l, some l' =>
      if LocationOverlaps l l' then
        if l.Path = "" then resolvedOverlaps c other else true
      else false

/-- `FilterOverlapping` on comment threads: recurse into children, then
keep each comment that overlaps no excluded comment. -/
def FilterOverlapping : List CommentThread → List Comment → List Comment
  | [], _ => []
  | CommentThread.mk _ c children :: rest, exclude =>
    (FilterOverlapping children exclude ++
      (let keep := exclude.foldl (fun inc e => if Overlaps e c then false else inc) true
       if keep then [c] else [])) ++
    FilterOverlapping rest exclude

end reviewV2

namespace comment

/-- `comment.ParseAllValid`: parse every note that is a valid review
comment and record it under its content hash. -/
def ParseAllValid (hashFn : Jval → String) (notes : List Jval) : List (String × Comment) :=
  notes.foldl
    (fun comments note =>
      match Parse note with
      | none => comments
      | some c => aupdate comments (Comment.Hash hashFn c) c)
    []

end comment

/-! ### Package `arcanist`: the transaction-log reconstructor

`LoadComments` replays an ordered Phabricator transaction log and
rebuilds the comment list, including the synthetic "this rejection is
now resolved" children emitted on accept actions.  The SQL-backed
collaborators are passed as functions, exactly as in the source (whose
test injects mocks the same way); returning `none` models the
`log.Fatal` abort on a collaborator error. -/

namespace arcanist

open comment (Comment CommentLocation CommentRange)

/-- `user` (package `arcanist`): resolved identity record. -/
structure user where
  PHID : String := ""
  UserName : String := ""
  Email : String := ""
deriving DecidableEq

/-- `differentialDatabaseTransaction`: one atomic review action.
The Go field `Type` is rendered `TxType` (`Type` is reserved in Lean). -/
structure differentialDatabaseTransaction where
  PHID : String := ""
  AuthorPHID : String := ""
  DateCreated : Nat := 0
  TxType : String := ""
  NewValue : Option String := none
  CommentPHID : Option String := none
deriving DecidableEq

/-- `differentialDatabaseTransactionComment`: the body of a comment. -/
structure differentialDatabaseTransactionComment where
  PHID : String := ""
  Commit : String := ""
  FileName : String := ""
  LineNumber : Nat := 0
  ReplyToCommentPHID : Option String := none
  Content : String := ""
deriving DecidableEq

/-- The fields of `differentialReview` that `LoadComments` reads. -/
structure differentialReview where
  ID : String := ""
  PHID : String := ""
deriving DecidableEq

/-- `ReadTransactions` collaborator type. -/
abbrev ReadTransactions : Type := String → Option (List differentialDatabaseTransaction)

/-- `ReadTransactionComment` collaborator type. -/
abbrev ReadTransactionComment : Type := String → Option differentialDatabaseTransactionComment

/-- `UserLookup` collaborator type. -/
abbrev UserLookup : Type := String → Option user

/-- The in-memory state threaded through `LoadComments`'s loop:
the emitted comments, the per-transaction comment map used to resolve
reply-to references, and the per-actor rejection-hash lists. -/
structure LoadState where
  comments : List Comment := []
  commentsByPHID : List (String × Comment) := []
  rejectionCommentsByUser : List (String × List String) := []

/-- The comment skeleton built at the top of the loop body: actor
identity (email preferred, falling back to the account name) and the
transaction's creation time. -/
def buildBase (author : user) (t : differentialDatabaseTransaction) : Comment :=
  { Timestamp := toString t.DateCreated,
    Author := if author.Email ≠ "" then author.Email else author.UserName }

/-- The comment-payload part of the loop body: location, description
and reply-to parent (resolved against the already-emitted comments). -/
def applyPayload (hashFn : Jval → String) (readTransactionComment : ReadTransactionComment)
    (s : LoadState) (t : differentialDatabaseTransaction) (c : Comment) : Option Comment :=
  match t.CommentPHID with
  | none => some c
  | some _ =>
    match readTransactionComment t.PHID with
    | none => none
    | some transactionComment =>
      let c := if transactionComment.FileName ≠ "" then
          { c with Location := some (CommentLocation.mk transactionComment.Commit
              transactionComment.FileName
              (if transactionComment.LineNumber ≠ 0 then
                some ⟨transactionComment.LineNumber⟩ else none)) }
        else c
      let c := { c with Description := transactionComment.Content }
      match transactionComment.ReplyToCommentPHID with
      | some ref =>
        match alookup s.commentsByPHID ref with
        | some replyTo => some { c with Parent := Comment.Hash hashFn replyTo }
        | none => some c
      | none => some c

/-- The accept/reject part of the loop body: sets the resolved bit and,
on accept, synthesizes one resolved child per rejection previously
recorded for this actor. -/
def applyAction (s : LoadState) (userName : String)
    (t : differentialDatabaseTransaction) (c : Comment) : Comment × List Comment :=
  if t.TxType = "differential:action" then
    match t.NewValue with
    | some action =>
      if action = "\"accept\"" then
        let c := { c with Resolved := some true }
        (c, ((alookup s.rejectionCommentsByUser userName).getD []).map
          (fun rejectionCommentHash =>
            { Author := c.Author, Timestamp := c.Timestamp,
              Resolved := some true, Parent := rejectionCommentHash }))
      else if action = "\"reject\"" then ({ c with Resolved := some false }, [])
      else (c, [])
    | none => (c, [])
  else (c, [])

/-- The non-empty filter at the bottom of the loop body. -/
def nonEmptyComment (c : Comment) : Prop :=
  c.Parent ≠ "" ∨ c.Location ≠ none ∨ c.Description ≠ "" ∨ c.Resolved ≠ none

instance (c : Comment) : Decidable (nonEmptyComment c) := by
  unfold nonEmptyComment; infer_instance

/-- One iteration of `LoadComments`'s loop over the transaction log. -/
def processTransaction (hashFn : Jval → String) (readTransactionComment : ReadTransactionComment)
    (lookupUser : UserLookup) (s : LoadState) (t : differentialDatabaseTransaction) :
    Option LoadState :=
  match lookupUser t.AuthorPHID with
  | none => none
  | some author =>
    match applyPayload hashFn readTransactionComment s t (buildBase author t) with
    | none => none
    | some c0 =>
      let (c, approveComments) := applyAction s author.UserName t c0
      let comments := s.comments ++ approveComments
      if nonEmptyComment c then
        some
          { comments := comments ++ [c],
            commentsByPHID := aupdate s.commentsByPHID t.PHID c,
            rejectionCommentsByUser :=
              if c.Resolved = some false then
                aupdate s.rejectionCommentsByUser author.UserName
                  (((alookup s.rejectionCommentsByUser author.UserName).getD []) ++
                    [Comment.Hash hashFn c])
              else s.rejectionCommentsByUser }
      else some { s with comments := comments }

/-- The loop of `LoadComments` over the whole transaction log. -/
def runTransactions (hashFn : Jval → String) (readTransactionComment : ReadTransactionComment)
    (lookupUser : UserLookup) (s : LoadState) :
    List differentialDatabaseTransaction → Option LoadState
  | [] => some s
  | t :: rest =>
    match processTransaction hashFn readTransactionComment lookupUser s t with
    | none => none
    | some s' => runTransactions hashFn readTransactionComment lookupUser s' rest

/-- `LoadComments`: replay the review's transaction log in ascending
order and return the reconstructed comments. -/
def LoadComments (hashFn : Jval → String) (review : differentialReview)
    (readTransactions : ReadTransactions) (readTransactionComment : ReadTransactionComment)
    (lookupUser : UserLookup) : Option (List Comment) :=
  match readTransactions review.PHID with
  | none => none
  | some allTransactions =>
    match runTransactions hashFn readTransactionComment lookupUser {} allTransactions with
    | none => none
    | some s => some s.comments

/-! The mock collaborators of `TestLoadComments`. -/

/-- `BuildTransactionForUser` (test helper). -/
def BuildTransactionForUser (userId action : String) (order : Nat) :
    differentialDatabaseTransaction :=
  { AuthorPHID := userId, PHID := "123", DateCreated := order,
    TxType := "differential:action", NewValue := some action }

/-- `MockReadTransactions` (test helper): the five-transaction log
(u1 reject, u1 accept, u1 reject, u2 reject, u1 accept). -/
def MockReadTransactions : ReadTransactions := fun _ =>
  some
    [BuildTransactionForUser "u1" "\"reject\"" 1,
     BuildTransactionForUser "u1" "\"accept\"" 2,
     BuildTransactionForUser "u1" "\"reject\"" 3,
     BuildTransactionForUser "u2" "\"reject\"" 4,
     BuildTransactionForUser "u1" "\"accept\"" 5]

/-- `MockReadTransactionComment` (test helper). -/
def MockReadTransactionComment : ReadTransactionComment := fun _ =>
  some { PHID := "2" }

/-- `MockLookupUser` (test helper). -/
def MockLookupUser : UserLookup := fun userPHID =>
  some { UserName := userPHID, Email := userPHID ++ "@gmail.com", PHID := "123" }

/-- `SetupExpectedComments` (test helper), parameterized by the digest
function: the eight comments the scenario is expected to produce. -/
def SetupExpectedComments (hashFn : Jval → String) : List Comment :=
  let c1 : Comment := { Timestamp := "1", Author := "u1@gmail.com", Resolved := some false }
  let c4 : Comment := { Timestamp := "3", Author := "u1@gmail.com", Resolved := some false }
  [c1,
   { Timestamp := "2", Author := "u1@gmail.com", Resolved := some true,
     Parent := Comment.Hash hashFn c1 },
   { Timestamp := "2", Author := "u1@gmail.com", Resolved := some true },
   c4,
   { Timestamp := "4", Author := "u2@gmail.com", Resolved := some false },
   { Timestamp := "5", Author := "u1@gmail.com", Resolved := some true,
     Parent := Comment.Hash hashFn c1 },
   { Timestamp := "5", Author := "u1@gmail.com", Resolved := some true,
     Parent := Comment.Hash hashFn c4 },
   { Timestamp := "5", Author := "u1@gmail.com", Resolved := some true }]

/-- Parent causality: every comment in the list whose `Parent` is
non-empty carries the content hash of a comment appearing strictly
earlier in the list. -/
def ParentsOK (hashFn : Jval → String) (l : List comment.Comment) : Prop :=
  ∀ (i : Nat) (hi : i < l.length), (l[i]).Parent ≠ "" →
    ∃ (j : Nat) (hj : j < l.length), j < i ∧
      comment.Comment.Hash hashFn l[j] = (l[i]).Parent

/-- The loop invariant of `LoadComments`: every reply-lookup entry and
every recorded rejection hash refers to an already emitted comment, and
the emitted list satisfies parent causality. -/
def StateOK (hashFn : Jval → String) (s : LoadState) : Prop :=
  (∀ p c, alookup s.commentsByPHID p = some c → c ∈ s.comments) ∧
  (∀ u h, h ∈ (alookup s.rejectionCommentsByUser u).getD [] →
    ∃ c ∈ s.comments, comment.Comment.Hash hashFn c = h) ∧
  ParentsOK hashFn s.comments

end arcanist

/-! ### Package `mirror`: the per-repository synchronization pass

`mirrorRepoToReview` is modelled over abstract collaborators, for a
remote review service whose observable answers do not change between
runs: each open review is a fixed `firstCommit` and a fixed list of
loaded comments.  The repository state fingerprint (`GetRepoStateHash`,
a SHA-1 of `git show-ref`) is an abstract function `stateHashFn` of the
notes store, since appending a note moves the notes ref; its
collision-freedom is a hypothesis where a theorem needs it.  The
network pull/push of an unchanged remote is a no-op and is elided.  The
run additionally returns the list of `(revision, note)` pairs appended
during the pass, so that "appends zero new notes" is directly
statable. -/

namespace mirror

open comment (Comment)

/-- The git-notes ref holding review comments (`comment.Ref`). -/
def commentRef : String := "refs/notes/devtools/discuss"

/-- Modelled from the spec: the git-notes ref holding review requests
(`request.Ref`, package `request`, whose source file is not in the
repository slice).  Only its distinctness from `commentRef` matters. -/
def requestRef : String := "refs/notes/devtools/reviews"

/-- One open remote review, as the sync pass observes it: its earliest
relevant local revision and the comments loaded from the remote
transaction log. -/
structure PhabReview where
  firstCommit : Option String := none
  loadedComments : List Comment := []

/-- The repository's notes, keyed by (ref, revision). -/
abbrev NotesStore : Type := List ((String × String) × List Jval)

/-- `GetNotes`: the notes under a ref for a revision. -/
def getNotes (ns : NotesStore) (ref rev : String) : List Jval :=
  (alookup ns (ref, rev)).getD []

/-- `AppendNote`: append one note under a ref for a revision. -/
def appendNote (ns : NotesStore) (ref rev : String) (note : Jval) : NotesStore :=
  aupdate ns (ref, rev) (getNotes ns ref rev ++ [note])

/-- `ListNotedRevisions`: the revisions carrying notes under a ref. -/
def ListNotedRevisions (ns : NotesStore) (ref : String) : List String :=
  (ns.filter (fun e => decide (e.1.1 = ref) && !e.2.isEmpty)).map (fun e => e.1.2)

/-- The module-level mutable state of package `mirror`, restricted to a
single repository: the last processed fingerprint, the per-revision
comment cache, the open-review cache, and (as part of the model) the
repository's own notes store. -/
structure MirrorState where
  processedState : Option String := none
  existingComments : List (String × List (String × Comment)) := []
  openReviews : List PhabReview := []
  notes : NotesStore := []

/-- `getExistingComments`: read the per-revision comment cache,
inserting an empty map when the revision is missing. -/
def getExistingComments (st : MirrorState) (revision : String) :
    List (String × Comment) × MirrorState :=
  match alookup st.existingComments revision with
  | some revisionComments => (revisionComments, st)
  | none => ([], { st with existingComments := aupdate st.existingComments revision [] })

/-- `hasOverlap`: does the new comment overlap any already-known one? -/
def hasOverlap (newComment : Comment) (existingComments : List (String × Comment)) : Bool :=
  existingComments.any (fun kc => newComment.Overlaps kc.2)

/-- The fingerprint-guarded block of `mirrorRepoToReview`: when the
repository state changed, re-read the comment cache for every
request-annotated revision, recompute the open reviews, and record the
fingerprint.  (`EnsureRequestExists` and `Refresh` only talk to the
remote service and do not touch this state.) -/
def refreshState (hashFn : Jval → String) (stateHashFn : NotesStore → String)
    (reviews : List PhabReview) (st : MirrorState) : MirrorState :=
  let stateHash := stateHashFn st.notes
  if st.processedState = some stateHash then st
  else
    { st with
      existingComments :=
        (ListNotedRevisions st.notes requestRef).foldl
          (fun ec revision =>
            aupdate ec revision (comment.ParseAllValid hashFn (getNotes st.notes commentRef revision)))
          st.existingComments,
      openReviews := reviews,
      processedState := some stateHash }

/-- The harvesting loop body for one open review: append every loaded
comment that overlaps nothing already known for the review's first
relevant revision. -/
def harvestReview (acc : MirrorState × List (String × Jval)) (review : PhabReview) :
    MirrorState × List (String × Jval) :=
  match review.firstCommit with
  | none => acc
  | some reviewCommit =>
    let (revisionComments, st) := getExistingComments acc.1 reviewCommit
    review.loadedComments.foldl
      (fun acc c =>
        if hasOverlap c revisionComments then acc
        else ({ acc.1 with notes := appendNote acc.1.notes commentRef reviewCommit c.Write },
              acc.2 ++ [(reviewCommit, c.Write)]))
      (st, acc.2)

/-- `mirrorRepoToReview`: one synchronization pass over one repository,
returning the new state and the list of appended notes. -/
def mirrorRepoToReview (hashFn : Jval → String) (stateHashFn : NotesStore → String)
    (reviews : List PhabReview) (st : MirrorState) : MirrorState × List (String × Jval) :=
  let st := refreshState hashFn stateHashFn reviews st
  st.openReviews.foldl harvestReview (st, [])

end mirror

/-! ## Helper lemmas -/

namespace reviewV1

open comment (Comment CommentLocation CommentRange)

theorem descriptionOverlaps_symm (a b : Comment) :
    descriptionOverlaps a b = descriptionOverlaps b a := by
  unfold descriptionOverlaps
  by_cases h : a.Description = b.Description
  · rw [if_pos h, if_pos h.symm]
  · rw [if_neg h, if_neg (fun he : b.Description = a.Description => h he.symm)]
    cases hq1 : isQuote a b <;> cases hq2 : isQuote b a <;> simp [hq1, hq2]

theorem LocationOverlaps_symm (l l' : CommentLocation) :
    LocationOverlaps l l' = LocationOverlaps l' l := by
  unfold LocationOverlaps
  by_cases h1 : l.Commit = l'.Commit
  · by_cases h2 : l.Path = l'.Path
    · rw [if_neg (not_not_intro h1), if_neg (not_not_intro h1.symm),
        if_neg (not_not_intro h2), if_neg (not_not_intro h2.symm)]
      cases l.Range <;> cases l'.Range <;> simp [eq_comm]
    · rw [if_neg (not_not_intro h1), if_neg (not_not_intro h1.symm),
        if_pos h2, if_pos (fun he => h2 he.symm)]
  · rw [if_pos h1, if_pos (fun he => h1 he.symm)]

theorem LocationOverlaps_path_eq {l l' : CommentLocation}
    (h : LocationOverlaps l l' = true) : l.Commit = l'.Commit ∧ l.Path = l'.Path := by
  unfold LocationOverlaps at h
  by_cases h1 : l.Commit = l'.Commit
  · by_cases h2 : l.Path = l'.Path
    · exact ⟨h1, h2⟩
    · rw [if_neg (not_not_intro h1), if_pos h2] at h; exact absurd h (by simp)
  · rw [if_pos h1] at h; exact absurd h (by simp)

theorem Overlaps_eq_true_iff (a b : Comment) :
    Overlaps a b = true ↔
      descriptionOverlaps a b = true ∧
      ((a.Resolved = none ∧ b.Resolved = none) ∨
        (∃ r, a.Resolved = some r ∧ b.Resolved = some r ∧ a.Timestamp = b.Timestamp)) ∧
      ((a.Location = none ∧ b.Location = none) ∨
        (∃ l l', a.Location = some l ∧ b.Location = some l' ∧ LocationOverlaps l l' = true)) := by
  obtain ⟨ts, au, pa, lo, de, re⟩ := a
  obtain ⟨ts', au', pa', lo', de', re'⟩ := b
  cases re <;> cases re' <;> cases lo <;> cases lo' <;>
    (simp only [Overlaps, Overlaps.locCheck] <;> split_ifs <;> (try simp_all) <;> (try tauto))

theorem Overlaps_true_of_symm {a b : Comment} (h : Overlaps a b = true) :
    Overlaps b a = true := by
  rw [Overlaps_eq_true_iff] at h ⊢
  obtain ⟨hd, hr, hl⟩ := h
  refine ⟨by rw [descriptionOverlaps_symm]; exact hd, ?_, ?_⟩
  · rcases hr with ⟨h1, h2⟩ | ⟨r, h1, h2, h3⟩
    exacts [Or.inl ⟨h2, h1⟩, Or.inr ⟨r, h2, h1, h3.symm⟩]
  · rcases hl with ⟨h1, h2⟩ | ⟨l, l', h1, h2, h3⟩
    exacts [Or.inl ⟨h2, h1⟩,
      Or.inr ⟨l', l, h2, h1, by rw [LocationOverlaps_symm]; exact h3⟩]

theorem Overlaps_symm (a b : Comment) : Overlaps a b = Overlaps b a := by
  rw [Bool.eq_iff_iff]
  exact ⟨fun h => Overlaps_true_of_symm h, fun h => Overlaps_true_of_symm h⟩

end reviewV1

namespace reviewV2

open comment (Comment CommentLocation CommentRange)

/-- The relaxed variant's helpers are textually identical to the strict
variant's. -/
theorem descriptionOverlaps_eq_V1 : @descriptionOverlaps = @reviewV1.descriptionOverlaps := rfl

theorem LocationOverlaps_eq_V1 : @LocationOverlaps = @reviewV1.LocationOverlaps := rfl

theorem resolvedOverlaps_eq_true_iff (a b : Comment) :
    resolvedOverlaps a b = true ↔
      ((a.Resolved = none ∧ b.Resolved = none) ∨
        (∃ r, a.Resolved = some r ∧ b.Resolved = some r)) := by
  cases ha : a.Resolved <;> cases hb : b.Resolved <;>
    (simp only [resolvedOverlaps, ha, hb] <;> split_ifs <;> (try simp_all) <;> (try tauto))

theorem resolvedOverlaps_symm (a b : Comment) :
    resolvedOverlaps a b = resolvedOverlaps b a := by
  rw [Bool.eq_iff_iff, resolvedOverlaps_eq_true_iff, resolvedOverlaps_eq_true_iff]
  constructor
  · rintro (⟨h1, h2⟩ | ⟨r, h1, h2⟩)
    exacts [Or.inl ⟨h2, h1⟩, Or.inr ⟨r, h2, h1⟩]
  · rintro (⟨h1, h2⟩ | ⟨r, h1, h2⟩)
    exacts [Or.inl ⟨h2, h1⟩, Or.inr ⟨r, h2, h1⟩]

theorem Overlaps_eq_true_iff_v2 (a b : Comment) :
    Overlaps a b = true ↔
      descriptionOverlaps a b = true ∧
      ((a.Location = none ∧ b.Location = none ∧ resolvedOverlaps a b = true) ∨
        (∃ l l', a.Location = some l ∧ b.Location = some l' ∧
          LocationOverlaps l l' = true ∧
          (l.Path = "" → resolvedOverlaps a b = true))) := by
  cases hla : a.Location <;> cases hlb : b.Location <;>
    (simp only [Overlaps, hla, hlb] <;> split_ifs <;> simp_all)

theorem Overlaps_true_of_symm_v2 {a b : Comment} (h : Overlaps a b = true) :
    Overlaps b a = true := by
  rw [Overlaps_eq_true_iff_v2] at h ⊢
  obtain ⟨hd, hl⟩ := h
  refine ⟨by rw [descriptionOverlaps_eq_V1, reviewV1.descriptionOverlaps_symm]
             rw [descriptionOverlaps_eq_V1] at hd; exact hd, ?_⟩
  rcases hl with ⟨h1, h2, h3⟩ | ⟨l, l', h1, h2, h3, h4⟩
  · exact Or.inl ⟨h2, h1, by rw [resolvedOverlaps_symm]; exact h3⟩
  · have hpath : l.Path = l'.Path := by
      have := @reviewV1.LocationOverlaps_path_eq l l'
        (by rw [← LocationOverlaps_eq_V1]; exact h3)
      exact this.2
    refine Or.inr ⟨l', l, h2, h1, ?_, ?_⟩
    · rw [LocationOverlaps_eq_V1, reviewV1.LocationOverlaps_symm]
      rw [LocationOverlaps_eq_V1] at h3; exact h3
    · intro hp
      rw [resolvedOverlaps_symm]
      exact h4 (by rw [hpath]; exact hp)

theorem Overlaps_symm_v2 (a b : Comment) : Overlaps a b = Overlaps b a := by
  rw [Bool.eq_iff_iff]
  exact ⟨fun h => Overlaps_true_of_symm_v2 h, fun h => Overlaps_true_of_symm_v2 h⟩

end reviewV2

namespace comment

/-- The `comment` package's overlap predicate is textually identical to
the strict `review`-package variant. -/
theorem Overlaps_eq_V1 : @Comment.Overlaps = @reviewV1.Overlaps := rfl

end comment

namespace reviewV1

open comment (Comment CommentLocation)

theorem descriptionOverlaps_self (a : Comment) : descriptionOverlaps a a = true := by
  unfold descriptionOverlaps
  rw [if_pos rfl]

theorem LocationOverlaps_refl (l : CommentLocation) : LocationOverlaps l l = true := by
  unfold LocationOverlaps
  rw [if_neg (not_not_intro rfl), if_neg (not_not_intro rfl)]
  cases l.Range <;> simp

theorem Overlaps_refl (a : Comment) : Overlaps a a = true := by
  rw [Overlaps_eq_true_iff]
  refine ⟨descriptionOverlaps_self a, ?_, ?_⟩
  · cases ha : a.Resolved
    exacts [Or.inl ⟨rfl, rfl⟩, Or.inr ⟨_, rfl, rfl, rfl⟩]
  · cases hla : a.Location
    exacts [Or.inl ⟨rfl, rfl⟩, Or.inr ⟨_, _, rfl, rfl, LocationOverlaps_refl _⟩]

end reviewV1

namespace reviewV2

open comment (Comment)

theorem Overlaps_refl_v2 (a : Comment) : Overlaps a a = true := by
  rw [Overlaps_eq_true_iff_v2]
  have hres : resolvedOverlaps a a = true := by
    rw [resolvedOverlaps_eq_true_iff]
    cases ha : a.Resolved
    exacts [Or.inl ⟨rfl, rfl⟩, Or.inr ⟨_, rfl, rfl⟩]
  refine ⟨by rw [descriptionOverlaps_eq_V1]; exact reviewV1.descriptionOverlaps_self a, ?_⟩
  cases hla : a.Location
  · exact Or.inl ⟨rfl, rfl, hres⟩
  · exact Or.inr ⟨_, _, rfl, rfl,
      by rw [LocationOverlaps_eq_V1]; exact reviewV1.LocationOverlaps_refl _,
      fun _ => hres⟩

end reviewV2

/-- The early-exit flag loop used by both `FilterOverlapping` variants,
reduced to `List.all`. -/
theorem foldl_flag {α : Type} (f : α → Bool) :
    ∀ (E : List α) (b : Bool),
      E.foldl (fun p e => if f e then false else p) b = (b && E.all fun e => !f e)
  | [], b => by simp
  | e :: E, b => by
    rw [List.foldl_cons, foldl_flag f E, List.all_cons]
    cases hf : f e <;> cases b <;> simp [hf]

namespace reviewV1

open comment (Comment)

theorem CommentMap.FilterOverlapping_aux (E : List Comment) :
    ∀ (m : List (String × Comment)) (acc : List Comment),
      m.foldl
        (fun filtered kc =>
          let passed := E.foldl (fun p e => if Overlaps e kc.2 then false else p) true
          if passed then filtered ++ [kc.2] else filtered) acc =
      acc ++ (m.map Prod.snd).filter (fun c => E.all fun e => !Overlaps e c)
  | [], acc => by simp
  | kc :: m, acc => by
    rw [List.foldl_cons]
    simp only [foldl_flag (fun e => Overlaps e kc.2) E true, Bool.true_and]
    rw [CommentMap.FilterOverlapping_aux E m]
    cases hp : E.all fun e => !Overlaps e kc.2 <;>
      simp [hp, List.filter_cons, List.append_assoc]

theorem CommentMap.FilterOverlapping_eq (m : CommentMap) (E : List Comment) :
    CommentMap.FilterOverlapping m E =
      (m.map Prod.snd).filter (fun c => E.all fun e => !Overlaps e c) := by
  have h := CommentMap.FilterOverlapping_aux E m []
  simpa [CommentMap.FilterOverlapping] using h

end reviewV1

namespace reviewV2

open comment (Comment)

theorem FilterOverlapping_eq_v2 :
    ∀ (threads : List CommentThread) (E : List Comment),
      FilterOverlapping threads E =
        (flattenForest threads).filter (fun c => E.all fun e => !Overlaps e c)
  | [], _ => by rw [FilterOverlapping, flattenForest]; rfl
  | CommentThread.mk h c children :: rest, E => by
    rw [FilterOverlapping, flattenForest, FilterOverlapping_eq_v2 children E,
      FilterOverlapping_eq_v2 rest E]
    simp only [foldl_flag (fun e => Overlaps e c) E true, Bool.true_and,
      List.filter_append, List.append_assoc]
    cases hp : E.all fun e => !Overlaps e c <;> simp [hp, List.filter_cons]

end reviewV2

namespace reviewV1

open comment (Comment)

theorem isQuote_of_eq {c other : Comment}
    (h : c.Description = QuoteDescription other ∨
      c.Description = stringsReplace (QuoteDescription other) "\n" "\\n") :
    isQuote c other = true := by
  unfold isQuote
  split_ifs with h1 h2 h3
  · rfl
  · rfl
  · rfl
  · rcases h with h | h
    exacts [absurd h h1, absurd h h2]

theorem descriptionOverlaps_of_isQuote_right {c other : Comment}
    (h : isQuote other c = true) : descriptionOverlaps c other = true := by
  unfold descriptionOverlaps
  split_ifs with h1 h2
  · rfl
  · rfl
  · exact h

end reviewV1

namespace arcanist

open comment (Comment)

/-- The payload step never changes the skeleton's timestamp, author or
resolved bit (it only fills location, description and parent). -/
theorem applyPayload_preserves {hashFn : Jval → String} {rTC : ReadTransactionComment}
    {s : LoadState} {t : differentialDatabaseTransaction} {c c' : Comment}
    (h : applyPayload hashFn rTC s t c = some c') :
    c'.Timestamp = c.Timestamp ∧ c'.Author = c.Author ∧ c'.Resolved = c.Resolved := by
  unfold applyPayload at h
  cases hcp : t.CommentPHID with
  | none =>
    rw [hcp] at h
    cases Option.some.inj h
    exact ⟨rfl, rfl, rfl⟩
  | some _ =>
    rw [hcp] at h
    cases htc : rTC t.PHID with
    | none => rw [htc] at h; exact absurd h (by simp)
    | some tc =>
      rw [htc] at h
      dsimp only at h
      cases hrp : tc.ReplyToCommentPHID with
      | none =>
        rw [hrp] at h
        dsimp only at h
        cases Option.some.inj h
        by_cases hf : tc.FileName ≠ "" <;> simp [hf]
      | some ref =>
        rw [hrp] at h
        dsimp only at h
        cases halk : alookup s.commentsByPHID ref with
        | none =>
          rw [halk] at h
          dsimp only at h
          cases Option.some.inj h
          by_cases hf : tc.FileName ≠ "" <;> simp [hf]
        | some replyTo =>
          rw [halk] at h
          dsimp only at h
          cases Option.some.inj h
          by_cases hf : tc.FileName ≠ "" <;> simp [hf]

/-- `applyAction` on an accept-action transaction: resolve the comment
and synthesize one child per recorded rejection by this actor. -/
theorem applyAction_accept {s : LoadState} {userName : String}
    {t : differentialDatabaseTransaction} {c0 : Comment}
    (htype : t.TxType = "differential:action")
    (hnew : t.NewValue = some "\"accept\"") :
    applyAction s userName t c0 =
      ({ c0 with Resolved := some true },
        ((alookup s.rejectionCommentsByUser userName).getD []).map
          (fun rejectionCommentHash =>
            { Author := c0.Author, Timestamp := c0.Timestamp,
              Resolved := some true, Parent := rejectionCommentHash })) := by
  unfold applyAction
  rw [if_pos htype, hnew]
  rfl

/-- When the action step leaves the resolved bit unset, it neither
changed the comment nor synthesized children. -/
theorem applyAction_unresolved {s : LoadState} {userName : String}
    {t : differentialDatabaseTransaction} {c0 : Comment}
    (h : (applyAction s userName t c0).1.Resolved = none) :
    applyAction s userName t c0 = (c0, []) := by
  unfold applyAction at h ⊢
  by_cases htype : t.TxType = "differential:action"
  · rw [if_pos htype] at h ⊢
    cases hnew : t.NewValue with
    | none => rfl
    | some action =>
      rw [hnew] at h
      dsimp only at h ⊢
      by_cases hacc : action = "\"accept\""
      · rw [if_pos hacc] at h
        simp at h
      · rw [if_neg hacc] at h ⊢
        by_cases hrej : action = "\"reject\""
        · rw [if_pos hrej] at h
          simp at h
        · rw [if_neg hrej]
  · rw [if_neg htype]

/-- A transaction whose fully built comment is empty leaves the
reconstruction state exactly as it was. -/
theorem processTransaction_id {hashFn : Jval → String} {rTC : ReadTransactionComment}
    {lu : UserLookup} {s : LoadState} {t : differentialDatabaseTransaction}
    {author : user} {c0 : Comment}
    (hlu : lu t.AuthorPHID = some author)
    (hpay : applyPayload hashFn rTC s t (buildBase author t) = some c0)
    (hempty : ¬ nonEmptyComment (applyAction s author.UserName t c0).1) :
    processTransaction hashFn rTC lu s t = some s := by
  have hres : (applyAction s author.UserName t c0).1.Resolved = none := by
    by_contra hne
    exact hempty (Or.inr (Or.inr (Or.inr hne)))
  have hact := applyAction_unresolved hres
  have hne : ¬ nonEmptyComment c0 := by rw [hact] at hempty; exact hempty
  unfold processTransaction
  rw [hlu]
  dsimp only
  rw [hpay]
  dsimp only
  rw [hact]
  dsimp only
  rw [if_neg hne]
  simp

/-- `runTransactions` over a concatenation is sequential composition. -/
theorem runTransactions_append (hashFn : Jval → String) (rTC : ReadTransactionComment)
    (lu : UserLookup) :
    ∀ (L1 L2 : List differentialDatabaseTransaction) (s : LoadState),
      runTransactions hashFn rTC lu s (L1 ++ L2) =
        match runTransactions hashFn rTC lu s L1 with
        | none => none
        | some s1 => runTransactions hashFn rTC lu s1 L2
  | [], L2, s => by rw [List.nil_append, runTransactions]
  | t :: L1, L2, s => by
    rw [List.cons_append, runTransactions, runTransactions]
    cases processTransaction hashFn rTC lu s t with
    | none => rfl
    | some s1 => exact runTransactions_append hashFn rTC lu L1 L2 s1

end arcanist

/-- Characterization of lookup after insert-or-replace. -/
theorem alookup_aupdate {κ α : Type} [DecidableEq κ] :
    ∀ (m : List (κ × α)) (k k' : κ) (v : α),
      alookup (aupdate m k v) k' = if k = k' then some v else alookup m k'
  | [], k, k', v => by
    by_cases h : k = k' <;> simp [aupdate, alookup, h]
  | (k0, v0) :: m, k, k', v => by
    by_cases h0 : k0 = k
    · subst h0
      by_cases h1 : k0 = k' <;> simp [aupdate, alookup, h1]
    · by_cases h2 : k0 = k'
      · subst h2
        have hk : ¬ k = k0 := fun he => h0 he.symm
        simp [aupdate, alookup, h0, hk]
      · simp [aupdate, alookup, h0, h2, alookup_aupdate m k k' v]

namespace arcanist

open comment (Comment)

/-- The action step never changes the comment's parent. -/
theorem applyAction_parent (s : LoadState) (u : String)
    (t : differentialDatabaseTransaction) (c0 : Comment) :
    ((applyAction s u t c0).1).Parent = c0.Parent := by
  unfold applyAction
  by_cases htype : t.TxType = "differential:action"
  · rw [if_pos htype]
    cases hnv : t.NewValue with
    | none => rfl
    | some action =>
      dsimp only
      by_cases hacc : action = "\"accept\""
      · rw [if_pos hacc]
      · rw [if_neg hacc]
        by_cases hrej : action = "\"reject\""
        · rw [if_pos hrej]
        · rw [if_neg hrej]
  · rw [if_neg htype]

/-- Every synthesized accept child points at a recorded rejection hash
of the acting user. -/
theorem applyAction_synth_parent (s : LoadState) (u : String)
    (t : differentialDatabaseTransaction) (c0 : Comment) :
    ∀ x ∈ (applyAction s u t c0).2,
      x.Parent ∈ (alookup s.rejectionCommentsByUser u).getD [] := by
  unfold applyAction
  by_cases htype : t.TxType = "differential:action"
  · rw [if_pos htype]
    cases hnv : t.NewValue with
    | none => intro x hx; exact absurd hx (by simp)
    | some action =>
      dsimp only
      by_cases hacc : action = "\"accept\""
      · rw [if_pos hacc]
        intro x hx
        dsimp only at hx
        rw [List.mem_map] at hx
        obtain ⟨h', hh', rfl⟩ := hx
        exact hh'
      · rw [if_neg hacc]
        by_cases hrej : action = "\"reject\""
        · rw [if_pos hrej]; intro x hx; exact absurd hx (by simp)
        · rw [if_neg hrej]; intro x hx; exact absurd hx (by simp)
  · rw [if_neg htype]; intro x hx; exact absurd hx (by simp)

/-- The payload step either leaves the parent alone or sets it to the
hash of an already recorded reply-target. -/
theorem applyPayload_parent {hashFn : Jval → String} {rTC : ReadTransactionComment}
    {s : LoadState} {t : differentialDatabaseTransaction} {c c' : Comment}
    (h : applyPayload hashFn rTC s t c = some c') :
    c'.Parent = c.Parent ∨
      ∃ replyTo, (∃ ref, alookup s.commentsByPHID ref = some replyTo) ∧
        c'.Parent = Comment.Hash hashFn replyTo := by
  unfold applyPayload at h
  cases hcp : t.CommentPHID with
  | none =>
    rw [hcp] at h
    cases Option.some.inj h
    exact Or.inl rfl
  | some _ =>
    rw [hcp] at h
    cases htc : rTC t.PHID with
    | none => rw [htc] at h; exact absurd h (by simp)
    | some tc =>
      rw [htc] at h
      dsimp only at h
      cases hrp : tc.ReplyToCommentPHID with
      | none =>
        rw [hrp] at h
        dsimp only at h
        cases Option.some.inj h
        left
        by_cases hf : tc.FileName ≠ "" <;> simp [hf]
      | some ref =>
        rw [hrp] at h
        dsimp only at h
        cases halk : alookup s.commentsByPHID ref with
        | none =>
          rw [halk] at h
          dsimp only at h
          cases Option.some.inj h
          left
          by_cases hf : tc.FileName ≠ "" <;> simp [hf]
        | some replyTo =>
          rw [halk] at h
          dsimp only at h
          cases Option.some.inj h
          exact Or.inr ⟨replyTo, ⟨ref, halk⟩, rfl⟩

/-- Appending comments whose parents are hashes of existing comments
preserves parent causality. -/
theorem ParentsOK_append {hashFn : Jval → String} {l new : List Comment}
    (hl : ParentsOK hashFn l)
    (hnew : ∀ x ∈ new, x.Parent ≠ "" → ∃ c ∈ l, Comment.Hash hashFn c = x.Parent) :
    ParentsOK hashFn (l ++ new) := by
  intro i hi hp
  by_cases hlt : i < l.length
  · rw [List.getElem_append_left hlt] at hp ⊢
    obtain ⟨j, hj, hji, hh⟩ := hl i hlt hp
    refine ⟨j, by simp; omega, hji, ?_⟩
    rw [List.getElem_append_left hj]
    exact hh
  · push_neg at hlt
    rw [List.getElem_append_right hlt] at hp ⊢
    obtain ⟨c, hcmem, hch⟩ := hnew _ (List.getElem_mem _) hp
    obtain ⟨j, hj, hje⟩ := List.getElem_of_mem hcmem
    refine ⟨j, by simp; omega, by omega, ?_⟩
    rw [List.getElem_append_left hj, hje]
    exact hch

/-- One loop iteration preserves the `LoadComments` invariant. -/
theorem processTransaction_StateOK {hashFn : Jval → String} {rTC : ReadTransactionComment}
    {lu : UserLookup} {s : LoadState} {t : differentialDatabaseTransaction}
    {s' : LoadState} (hs : StateOK hashFn s)
    (h : processTransaction hashFn rTC lu s t = some s') :
    StateOK hashFn s' := by
  unfold processTransaction at h
  cases hlu : lu t.AuthorPHID with
  | none => rw [hlu] at h; exact absurd h (by simp)
  | some author =>
    rw [hlu] at h
    dsimp only at h
    cases hpay : applyPayload hashFn rTC s t (buildBase author t) with
    | none => rw [hpay] at h; exact absurd h (by simp)
    | some c0 =>
      rw [hpay] at h
      dsimp only at h
      rcases hp : applyAction s author.UserName t c0 with ⟨c, approve⟩
      rw [hp] at h
      dsimp only at h
      have hparent_c : c.Parent = c0.Parent := by
        have hx := applyAction_parent s author.UserName t c0
        rw [hp] at hx
        exact hx
      have hsynth : ∀ x ∈ approve,
          x.Parent ∈ (alookup s.rejectionCommentsByUser author.UserName).getD [] := by
        have hx := applyAction_synth_parent s author.UserName t c0
        rw [hp] at hx
        exact hx
      have hcpar : c.Parent ≠ "" → ∃ cc ∈ s.comments, Comment.Hash hashFn cc = c.Parent := by
        intro hxp
        rw [hparent_c] at hxp ⊢
        rcases applyPayload_parent hpay with heq | ⟨replyTo, ⟨ref, href⟩, heq⟩
        · exact absurd heq hxp
        · rw [heq]
          exact ⟨replyTo, hs.1 ref replyTo href, rfl⟩
      have hnew : ∀ x ∈ approve ++ [c], x.Parent ≠ "" →
          ∃ cc ∈ s.comments, Comment.Hash hashFn cc = x.Parent := by
        intro x hx hxp
        rcases List.mem_append.mp hx with hx | hx
        · exact hs.2.1 _ _ (hsynth x hx)
        · have hxc : x = c := by simpa using hx
          subst hxc
          exact hcpar hxp
      by_cases hne : nonEmptyComment c
      · rw [if_pos hne] at h
        cases Option.some.inj h
        refine ⟨?_, ?_, ?_⟩
        · intro p cc hcc
          dsimp only at hcc ⊢
          rw [alookup_aupdate] at hcc
          by_cases hpk : t.PHID = p
          · rw [if_pos hpk] at hcc
            cases Option.some.inj hcc
            simp
          · rw [if_neg hpk] at hcc
            have := hs.1 p cc hcc
            simp [this]
        · intro u h' hmem
          dsimp only at hmem ⊢
          by_cases hres : c.Resolved = some false
          · rw [if_pos hres, alookup_aupdate] at hmem
            by_cases huk : author.UserName = u
            · rw [if_pos huk] at hmem
              rw [Option.getD_some] at hmem
              rcases List.mem_append.mp hmem with hmem | hmem
              · obtain ⟨cc, hccm, hcch⟩ := hs.2.1 author.UserName h' hmem
                exact ⟨cc, by simp [hccm], hcch⟩
              · have hh : h' = Comment.Hash hashFn c := by simpa using hmem
                subst hh
                exact ⟨c, by simp, rfl⟩
            · rw [if_neg huk] at hmem
              obtain ⟨cc, hccm, hcch⟩ := hs.2.1 u h' hmem
              exact ⟨cc, by simp [hccm], hcch⟩
          · rw [if_neg hres] at hmem
            obtain ⟨cc, hccm, hcch⟩ := hs.2.1 u h' hmem
            exact ⟨cc, by simp [hccm], hcch⟩
        · dsimp only
          rw [List.append_assoc]
          exact ParentsOK_append hs.2.2 hnew
      · rw [if_neg hne] at h
        cases Option.some.inj h
        refine ⟨?_, ?_, ?_⟩
        · intro p cc hcc
          have := hs.1 p cc hcc
          simp [this]
        · intro u h' hmem
          obtain ⟨cc, hccm, hcch⟩ := hs.2.1 u h' hmem
          exact ⟨cc, by simp [hccm], hcch⟩
        · exact ParentsOK_append hs.2.2 (fun x hx _ => hs.2.1 _ _ (hsynth x hx))

/-- The whole loop preserves the invariant. -/
theorem runTransactions_StateOK {hashFn : Jval → String} {rTC : ReadTransactionComment}
    {lu : UserLookup} :
    ∀ {txs : List differentialDatabaseTransaction} {s s' : LoadState},
      runTransactions hashFn rTC lu s txs = some s' → StateOK hashFn s → StateOK hashFn s'
  | [], s, s', h, hs => by
    rw [runTransactions] at h
    cases Option.some.inj h
    exact hs
  | t :: txs, s, s', h, hs => by
    rw [runTransactions] at h
    cases hpt : processTransaction hashFn rTC lu s t with
    | none => rw [hpt] at h; exact absurd h (by simp)
    | some s1 =>
      rw [hpt] at h
      exact runTransactions_StateOK h (processTransaction_StateOK hs hpt)

/-- The empty initial state satisfies the invariant. -/
theorem StateOK_init (hashFn : Jval → String) : StateOK hashFn {} := by
  refine ⟨?_, ?_, ?_⟩
  · intro p c h
    simp [alookup] at h
  · intro u h' hm
    simp [alookup] at hm
  · intro i hi
    exact absurd hi (by simp)

end arcanist

namespace comment

theorem zeroPad_length (w : Nat) (s : String) : w ≤ (zeroPad w s).length := by
  unfold zeroPad
  by_cases h : s.length < w
  · rw [if_pos h, String.length_append]
    have hmk : (String.mk (List.replicate (w - s.length) '0')).length = w - s.length := by
      show (List.replicate (w - s.length) '0').length = w - s.length
      simp
    omega
  · rw [if_neg h]
    omega

theorem sprintf010d_length (t : Int) : 10 ≤ (sprintf010d t).length := by
  unfold sprintf010d
  by_cases ht : t < 0
  · rw [if_pos ht, String.length_append]
    have h9 := zeroPad_length 9 (toString (-t))
    have h1 : ("-" : String).length = 1 := rfl
    omega
  · rw [if_neg ht]
    exact zeroPad_length 10 (toString t)

theorem padTs_idem (s : String) : padTs (padTs s) = padTs s := by
  by_cases hlen : s.length < 10
  · cases hp : goParseInt s with
    | none =>
      have hid : padTs s = s := by unfold padTs; rw [if_pos hlen, hp]
      simp only [hid]
    | some t =>
      have hps : padTs s = sprintf010d t := by unfold padTs; rw [if_pos hlen, hp]
      have hlen2 := sprintf010d_length t
      rw [hps]
      unfold padTs
      rw [if_neg (by omega)]
  · have hid : padTs s = s := by unfold padTs; rw [if_neg hlen]
    simp only [hid]

theorem padTimestamp_idem (c : Comment) : padTimestamp (padTimestamp c) = padTimestamp c := by
  unfold padTimestamp
  simp [padTs_idem]

theorem Parse_toJson_noLoc (ts au pa de : String) (re : Option Bool) :
    Parse (Comment.toJson ⟨ts, au, pa, none, de, re⟩) = some ⟨ts, au, pa, none, de, re⟩ := by
  rcases re with - | rb <;>
    by_cases hts : ts = "" <;> by_cases hau : au = "" <;> by_cases hpa : pa = "" <;>
    by_cases hde : de = "" <;>
    (simp only [Comment.toJson, hts, hau, hpa, hde, reduceIte]; rfl)

theorem jLocVal_toJson_noRange (lc lp : String) :
    jLocVal (CommentLocation.toJson ⟨lc, lp, none⟩) = some (some ⟨lc, lp, none⟩) := by
  by_cases hlc : lc = "" <;> by_cases hlp : lp = "" <;>
    (simp only [CommentLocation.toJson, hlc, hlp, reduceIte]; rfl)

theorem jRangeVal_num (n : Nat) :
    jRangeVal (Jval.obj [("startLine", Jval.num n)]) =
      (if n < 4294967296 then some (some ⟨n⟩) else none) := by
  unfold jRangeVal jUint32
  dsimp only
  rw [show jLookup [("startLine", Jval.num n)] "startLine" = some (Jval.num n) from rfl]
  dsimp only
  by_cases h : n < 4294967296
  · rw [if_pos h, if_pos h]
  · rw [if_neg h, if_neg h]

theorem jLocVal_toJson_range (lc lp : String) (ln : Nat) (hb' : ln < 4294967296) :
    jLocVal (CommentLocation.toJson ⟨lc, lp, some ⟨ln⟩⟩) =
      some (some ⟨lc, lp, some ⟨ln⟩⟩) := by
  by_cases hlc : lc = "" <;> by_cases hlp : lp = "" <;>
    (simp only [CommentLocation.toJson, hlc, hlp, reduceIte];
     simp only [jLocVal, jStr, jRangePtr, jLookup, String.reduceEq, if_true, if_false,
       jRangeVal_num, hb'];
     try rfl)

theorem Parse_withLoc (ts au pa de : String) (re : Option Bool) (v : Jval)
    (lo : Option CommentLocation) (hv : jLocVal v = some lo) :
    Parse (Jval.obj
      ((if ts = "" then [] else [("timestamp", Jval.str ts)]) ++
       (if au = "" then [] else [("author", Jval.str au)]) ++
       (if pa = "" then [] else [("parent", Jval.str pa)]) ++
       [("location", v)] ++
       (if de = "" then [] else [("description", Jval.str de)]) ++
       (match re with
        | none => []
        | some b => [("resolved", Jval.bool b)]))) =
      some ⟨ts, au, pa, lo, de, re⟩ := by
  rcases re with - | rb <;>
    by_cases hts : ts = "" <;> by_cases hau : au = "" <;> by_cases hpa : pa = "" <;>
    by_cases hde : de = "" <;>
    (simp only [hts, hau, hpa, hde, reduceIte];
     simp only [Parse, jLookup, jStr, jBoolPtr, jLocPtr, reduceIte, String.reduceEq, hv];
     try rfl)

/-- A marshalled comment unmarshals to exactly the marshalled struct
(given the `uint32` typing invariant on the line number). -/
theorem Parse_toJson (c : Comment) (hb : uint32Bounded c) : Parse c.toJson = some c := by
  obtain ⟨ts, au, pa, lo, de, re⟩ := c
  rcases lo with - | ⟨lc, lp, lr⟩
  · exact Parse_toJson_noLoc ts au pa de re
  · rcases lr with - | ⟨⟨ln⟩⟩
    · exact Parse_withLoc ts au pa de re (CommentLocation.toJson ⟨lc, lp, none⟩)
        (some ⟨lc, lp, none⟩) (jLocVal_toJson_noRange lc lp)
    · have hb' : ln < 4294967296 := by
        unfold uint32Bounded at hb
        simpa using hb
      exact Parse_withLoc ts au pa de re (CommentLocation.toJson ⟨lc, lp, some ⟨ln⟩⟩)
        (some ⟨lc, lp, some ⟨ln⟩⟩) (jLocVal_toJson_range lc lp ln hb')

end comment

/-! ### Toward the synchronization pass: association-list maps, parsed
caches, and the harvest loop -/


/-! ### Association lists: membership and key uniqueness -/

theorem alookup_mem {κ α : Type} [DecidableEq κ] :
    ∀ (m : List (κ × α)) (k : κ) (v : α), alookup m k = some v → (k, v) ∈ m
  | [], k, v, h => by simp [alookup] at h
  | (k0, v0) :: m, k, v, h => by
    rw [alookup] at h
    by_cases hk : k0 = k
    · rw [if_pos hk] at h
      obtain rfl := Option.some.inj h
      subst hk
      exact List.mem_cons_self _ _
    · rw [if_neg hk] at h
      exact List.mem_cons_of_mem _ (alookup_mem m k v h)

theorem mem_fst_aupdate {κ α : Type} [DecidableEq κ] :
    ∀ (m : List (κ × α)) (k k' : κ) (v : α),
      k' ∈ (aupdate m k v).map Prod.fst ↔ k' = k ∨ k' ∈ m.map Prod.fst
  | [], k, k', v => by simp [aupdate]
  | (k0, v0) :: m, k, k', v => by
    rw [aupdate]
    by_cases h0 : k0 = k
    · subst h0
      rw [if_pos rfl]
      simp only [List.map_cons, List.mem_cons]
      tauto
    · rw [if_neg h0]
      simp only [List.map_cons, List.mem_cons, mem_fst_aupdate m k k' v]
      tauto

theorem nodup_fst_aupdate {κ α : Type} [DecidableEq κ] :
    ∀ (m : List (κ × α)) (k : κ) (v : α),
      (m.map Prod.fst).Nodup → ((aupdate m k v).map Prod.fst).Nodup
  | [], k, v, _ => by simp [aupdate]
  | (k0, v0) :: m, k, v, h => by
    rw [aupdate]
    by_cases h0 : k0 = k
    · subst h0
      rw [if_pos rfl]
      simpa using h
    · rw [if_neg h0]
      simp only [List.map_cons, List.nodup_cons] at h ⊢
      refine ⟨fun hc => ?_, nodup_fst_aupdate m k v h.2⟩
      rw [mem_fst_aupdate] at hc
      rcases hc with hc | hc
      · exact h0 hc
      · exact h.1 hc

theorem mem_alookup_of_nodup {κ α : Type} [DecidableEq κ] :
    ∀ (m : List (κ × α)) (k : κ) (v : α),
      (m.map Prod.fst).Nodup → (k, v) ∈ m → alookup m k = some v
  | [], k, v, _, h => absurd h (List.not_mem_nil _)
  | (k0, v0) :: m, k, v, hnd, h => by
    rw [alookup]
    simp only [List.map_cons, List.nodup_cons] at hnd
    rcases List.mem_cons.mp h with he | hm
    · injection he with h1 h2
      subst h1
      subst h2
      rw [if_pos rfl]
    · by_cases hk : k0 = k
      · exfalso
        subst hk
        exact hnd.1 (List.mem_map_of_mem Prod.fst hm)
      · rw [if_neg hk]
        exact mem_alookup_of_nodup m k v hnd.2 hm

/-- Lookup after a fold of keyed updates whose value depends only on the
key: keys not in the list are untouched. -/
theorem foldl_aupdate_lookup_notmem {κ α : Type} [DecidableEq κ] (F : κ → α) :
    ∀ (ks : List κ) (m : List (κ × α)) (k : κ), k ∉ ks →
      alookup (ks.foldl (fun m r => aupdate m r (F r)) m) k = alookup m k
  | [], m, k, _ => rfl
  | r :: ks, m, k, h => by
    rw [List.foldl_cons, foldl_aupdate_lookup_notmem F ks _ k (fun hm => h (List.mem_cons_of_mem _ hm)),
      alookup_aupdate, if_neg (fun he : r = k => h (he ▸ List.mem_cons_self _ _))]

/-- Lookup after a fold of keyed updates whose value depends only on the
key: keys in the list end up at their value. -/
theorem foldl_aupdate_lookup_mem {κ α : Type} [DecidableEq κ] (F : κ → α) :
    ∀ (ks : List κ) (m : List (κ × α)) (k : κ), k ∈ ks →
      alookup (ks.foldl (fun m r => aupdate m r (F r)) m) k = some (F k)
  | [], m, k, h => absurd h (List.not_mem_nil _)
  | r :: ks, m, k, h => by
    rw [List.foldl_cons]
    by_cases hk : k ∈ ks
    · exact foldl_aupdate_lookup_mem F ks _ k hk
    · have hrk : r = k := by
        rcases List.mem_cons.mp h with h | h
        · exact h.symm
        · exact absurd h hk
      rw [foldl_aupdate_lookup_notmem F ks _ k hk, alookup_aupdate, if_pos hrk]
      rw [hrk]

/-! ### `ParseAllValid` as a fold of keyed inserts -/

/-- `ParseAllValid` is the fold of hash-keyed inserts of the parsed
notes, with the match rendered through `Option.elim`. -/
theorem ParseAllValid_eq_foldl (hashFn : Jval → String) (notes : List Jval) :
    comment.ParseAllValid hashFn notes =
      notes.foldl (fun comments note =>
        (comment.Parse note).elim comments
          (fun c => aupdate comments (comment.Comment.Hash hashFn c) c)) [] := by
  rw [comment.ParseAllValid]
  congr 1
  funext comments note
  cases comment.Parse note <;> rfl

theorem pav_nodup (hashFn : Jval → String) :
    ∀ (notes : List Jval) (m : List (String × comment.Comment)),
      (m.map Prod.fst).Nodup →
      ((notes.foldl (fun comments note =>
          (comment.Parse note).elim comments
            (fun c => aupdate comments (comment.Comment.Hash hashFn c) c)) m).map
        Prod.fst).Nodup
  | [], _, h => h
  | n :: notes, m, h => by
    rw [List.foldl_cons]
    cases hp : comment.Parse n with
    | none =>
      simp only [hp, Option.elim_none]
      exact pav_nodup hashFn notes m h
    | some c =>
      simp only [hp, Option.elim_some]
      exact pav_nodup hashFn notes _ (nodup_fst_aupdate m _ c h)

theorem pav_extend (hashFn : Jval → String) :
    ∀ (notes : List Jval) (m : List (String × comment.Comment)) (k : String)
      (e0 : comment.Comment), alookup m k = some e0 →
      ∃ e, alookup (notes.foldl (fun comments note =>
          (comment.Parse note).elim comments
            (fun c => aupdate comments (comment.Comment.Hash hashFn c) c)) m) k = some e ∧
        (e = e0 ∨ ∃ n ∈ notes, comment.Parse n = some e ∧ comment.Comment.Hash hashFn e = k)
  | [], _, _, e0, h => ⟨e0, h, Or.inl rfl⟩
  | n :: notes, m, k, e0, h => by
    rw [List.foldl_cons]
    cases hp : comment.Parse n with
    | none =>
      simp only [hp, Option.elim_none]
      obtain ⟨e, h1, h2⟩ := pav_extend hashFn notes m k e0 h
      exact ⟨e, h1, h2.imp id (fun ⟨n', hn', hr⟩ => ⟨n', List.mem_cons_of_mem _ hn', hr⟩)⟩
    | some c =>
      simp only [hp, Option.elim_some]
      by_cases hk : comment.Comment.Hash hashFn c = k
      · have h' : alookup (aupdate m (comment.Comment.Hash hashFn c) c) k = some c := by
          rw [alookup_aupdate, if_pos hk]
        obtain ⟨e, h1, h2⟩ := pav_extend hashFn notes _ k c h'
        refine ⟨e, h1, Or.inr ?_⟩
        rcases h2 with rfl | ⟨n', hn', hr⟩
        · exact ⟨n, List.mem_cons_self _ _, hp, hk⟩
        · exact ⟨n', List.mem_cons_of_mem _ hn', hr⟩
      · have h' : alookup (aupdate m (comment.Comment.Hash hashFn c) c) k = some e0 := by
          rw [alookup_aupdate, if_neg hk]
          exact h
        obtain ⟨e, h1, h2⟩ := pav_extend hashFn notes _ k e0 h'
        exact ⟨e, h1, h2.imp id (fun ⟨n', hn', hr⟩ => ⟨n', List.mem_cons_of_mem _ hn', hr⟩)⟩

theorem pav_mem_of_parse (hashFn : Jval → String) :
    ∀ (notes : List Jval) (m : List (String × comment.Comment)) (n : Jval)
      (c : comment.Comment), n ∈ notes → comment.Parse n = some c →
      ∃ e, alookup (notes.foldl (fun comments note =>
          (comment.Parse note).elim comments
            (fun c => aupdate comments (comment.Comment.Hash hashFn c) c)) m)
            (comment.Comment.Hash hashFn c) = some e ∧
        (∃ n' ∈ notes, comment.Parse n' = some e) ∧
        comment.Comment.Hash hashFn e = comment.Comment.Hash hashFn c
  | [], _, n, _, hn, _ => absurd hn (List.not_mem_nil _)
  | n0 :: notes, m, n, c, hn, hp => by
    rw [List.foldl_cons]
    by_cases he : n = n0
    · subst he
      simp only [hp, Option.elim_some]
      have h' : alookup (aupdate m (comment.Comment.Hash hashFn c) c)
          (comment.Comment.Hash hashFn c) = some c := by
        rw [alookup_aupdate, if_pos rfl]
      obtain ⟨e, h1, h2⟩ := pav_extend hashFn notes _ _ c h'
      rcases h2 with rfl | ⟨n', hn', hr, hk⟩
      · exact ⟨e, h1, ⟨n, List.mem_cons_self _ _, hp⟩, rfl⟩
      · exact ⟨e, h1, ⟨n', List.mem_cons_of_mem _ hn', hr⟩, hk⟩
    · have hn' : n ∈ notes := by
        rcases List.mem_cons.mp hn with h | h
        · exact absurd h he
        · exact h
      cases hp0 : comment.Parse n0 with
      | none =>
        simp only [hp0, Option.elim_none]
        obtain ⟨e, h1, ⟨n', hm, hr⟩, h3⟩ := pav_mem_of_parse hashFn notes m n c hn' hp
        exact ⟨e, h1, ⟨n', List.mem_cons_of_mem _ hm, hr⟩, h3⟩
      | some c0 =>
        simp only [hp0, Option.elim_some]
        obtain ⟨e, h1, ⟨n', hm, hr⟩, h3⟩ := pav_mem_of_parse hashFn notes _ n c hn' hp
        exact ⟨e, h1, ⟨n', List.mem_cons_of_mem _ hm, hr⟩, h3⟩

theorem pav_provenance (hashFn : Jval → String) :
    ∀ (notes : List Jval) (m : List (String × comment.Comment)) (k : String)
      (e : comment.Comment),
      alookup (notes.foldl (fun comments note =>
          (comment.Parse note).elim comments
            (fun c => aupdate comments (comment.Comment.Hash hashFn c) c)) m) k = some e →
      alookup m k = some e ∨
        ((∃ n ∈ notes, comment.Parse n = some e) ∧ comment.Comment.Hash hashFn e = k)
  | [], _, _, _, h => Or.inl h
  | n0 :: notes, m, k, e, h => by
    rw [List.foldl_cons] at h
    cases hp : comment.Parse n0 with
    | none =>
      simp only [hp, Option.elim_none] at h
      rcases pav_provenance hashFn notes m k e h with h | ⟨⟨n', hm, hr⟩, hk⟩
      · exact Or.inl h
      · exact Or.inr ⟨⟨n', List.mem_cons_of_mem _ hm, hr⟩, hk⟩
    | some c =>
      simp only [hp, Option.elim_some] at h
      rcases pav_provenance hashFn notes _ k e h with h | ⟨⟨n', hm, hr⟩, hk⟩
      · rw [alookup_aupdate] at h
        by_cases hk : comment.Comment.Hash hashFn c = k
        · rw [if_pos hk] at h
          obtain rfl := Option.some.inj h
          exact Or.inr ⟨⟨n0, List.mem_cons_self _ _, hp⟩, hk⟩
        · rw [if_neg hk] at h
          exact Or.inl h
      · exact Or.inr ⟨⟨n', List.mem_cons_of_mem _ hm, hr⟩, hk⟩

/-! ### Parsed comments are `uint32`-bounded, and marshalling is injective -/

theorem jUint32_bounded (g : List (String × Jval)) (k : String) (n : Nat)
    (h : comment.jUint32 g k = some n) : n < 4294967296 := by
  unfold comment.jUint32 at h
  cases hl : comment.jLookup g k with
  | none =>
    rw [hl] at h
    obtain rfl := Option.some.inj h
    decide
  | some v =>
    rw [hl] at h
    cases v with
    | null =>
      obtain rfl := Option.some.inj h
      decide
    | num m =>
      dsimp only at h
      by_cases hm : m < 4294967296
      · rw [if_pos hm] at h
        obtain rfl := Option.some.inj h
        exact hm
      · rw [if_neg hm] at h
        exact Option.noConfusion h
    | str s => exact Option.noConfusion h
    | bool b => exact Option.noConfusion h
    | obj g' => exact Option.noConfusion h

theorem jRangeVal_bounded (v : Jval) (ro : Option comment.CommentRange)
    (h : comment.jRangeVal v = some ro) :
    ∀ r, ro = some r → r.StartLine < 4294967296 := by
  intro r hr
  subst hr
  cases v with
  | null => exact absurd (Option.some.inj h) (by simp)
  | str s => exact Option.noConfusion h
  | num m => exact Option.noConfusion h
  | bool b => exact Option.noConfusion h
  | obj g =>
    unfold comment.jRangeVal at h
    dsimp only at h
    cases hu : comment.jUint32 g "startLine" with
    | none =>
      rw [hu] at h
      exact Option.noConfusion h
    | some n =>
      rw [hu] at h
      obtain he := Option.some.inj (Option.some.inj h)
      subst he
      exact jUint32_bounded g "startLine" n hu

theorem jRangePtr_bounded (g : List (String × Jval)) (k : String)
    (ro : Option comment.CommentRange) (h : comment.jRangePtr g k = some ro) :
    ∀ r, ro = some r → r.StartLine < 4294967296 := by
  unfold comment.jRangePtr at h
  cases hl : comment.jLookup g k with
  | none =>
    rw [hl] at h
    intro r hr
    rw [hr] at h
    exact absurd (Option.some.inj h) (by simp)
  | some v =>
    rw [hl] at h
    exact jRangeVal_bounded v ro h

theorem jLocVal_bounded (v : Jval) (lo : Option comment.CommentLocation)
    (h : comment.jLocVal v = some lo) :
    ∀ l, lo = some l → ∀ r, l.Range = some r → r.StartLine < 4294967296 := by
  intro l hl r hr
  subst hl
  cases v with
  | null => exact absurd (Option.some.inj h) (by simp)
  | str s => exact Option.noConfusion h
  | num m => exact Option.noConfusion h
  | bool b => exact Option.noConfusion h
  | obj g =>
    unfold comment.jLocVal at h
    dsimp only at h
    cases h1 : comment.jStr g "commit" with
    | none =>
      rw [h1] at h
      exact Option.noConfusion h
    | some commit =>
      rw [h1] at h
      cases h2 : comment.jStr g "path" with
      | none =>
        rw [h2] at h
        exact Option.noConfusion h
      | some path =>
        rw [h2] at h
        cases h3 : comment.jRangePtr g "range" with
        | none =>
          rw [h3] at h
          exact Option.noConfusion h
        | some range =>
          rw [h3] at h
          obtain he := Option.some.inj (Option.some.inj h)
          subst he
          exact jRangePtr_bounded g "range" range h3 r hr

theorem jLocPtr_bounded (fs : List (String × Jval)) (k : String)
    (lo : Option comment.CommentLocation) (h : comment.jLocPtr fs k = some lo) :
    ∀ l, lo = some l → ∀ r, l.Range = some r → r.StartLine < 4294967296 := by
  unfold comment.jLocPtr at h
  cases hl : comment.jLookup fs k with
  | none =>
    rw [hl] at h
    intro l hlo
    rw [hlo] at h
    exact absurd (Option.some.inj h) (by simp)
  | some v =>
    rw [hl] at h
    exact jLocVal_bounded v lo h

/-- Every comment produced by `Parse` satisfies the `uint32` typing
invariant: `jUint32` rejects line numbers outside `uint32`. -/
theorem Parse_bounded (n : Jval) (e : comment.Comment) (h : comment.Parse n = some e) :
    comment.uint32Bounded e := by
  cases n with
  | null => exact Option.noConfusion h
  | str s => exact Option.noConfusion h
  | num m => exact Option.noConfusion h
  | bool b => exact Option.noConfusion h
  | obj fs =>
    unfold comment.Parse at h
    dsimp only at h
    cases h1 : comment.jStr fs "timestamp" with
    | none => rw [h1] at h; exact Option.noConfusion h
    | some ts =>
    rw [h1] at h
    cases h2 : comment.jStr fs "author" with
    | none => rw [h2] at h; exact Option.noConfusion h
    | some au =>
    rw [h2] at h
    cases h3 : comment.jStr fs "parent" with
    | none => rw [h3] at h; exact Option.noConfusion h
    | some pa =>
    rw [h3] at h
    cases h4 : comment.jLocPtr fs "location" with
    | none => rw [h4] at h; exact Option.noConfusion h
    | some lo =>
    rw [h4] at h
    cases h5 : comment.jStr fs "description" with
    | none => rw [h5] at h; exact Option.noConfusion h
    | some de =>
    rw [h5] at h
    cases h6 : comment.jBoolPtr fs "resolved" with
    | none => rw [h6] at h; exact Option.noConfusion h
    | some re =>
    rw [h6] at h
    obtain rfl := (Option.some.inj h).symm
    unfold comment.uint32Bounded
    cases hlo : lo with
    | none => exact trivial
    | some l =>
      dsimp only
      cases hr : l.Range with
      | none => exact trivial
      | some r => exact jLocPtr_bounded fs "location" lo h4 l hlo r hr

/-- Marshalling is injective on bounded comments. -/
theorem toJson_inj {x y : comment.Comment} (hx : comment.uint32Bounded x)
    (hy : comment.uint32Bounded y)
    (h : comment.Comment.toJson x = comment.Comment.toJson y) : x = y := by
  have hp := comment.Parse_toJson x hx
  rw [h, comment.Parse_toJson y hy] at hp
  exact (Option.some.inj hp).symm

theorem uint32Bounded_pad (c : comment.Comment) :
    comment.uint32Bounded (comment.padTimestamp c) ↔ comment.uint32Bounded c :=
  Iff.rfl

/-- The canonical serialized bytes determine the comment up to timestamp
normalization. -/
theorem serialize_inj {x y : comment.Comment} (hx : comment.uint32Bounded x)
    (hy : comment.uint32Bounded y)
    (h : comment.Comment.serialize x = comment.Comment.serialize y) :
    comment.padTimestamp x = comment.padTimestamp y :=
  toJson_inj ((uint32Bounded_pad x).mpr hx) ((uint32Bounded_pad y).mpr hy) h

/-- A comment with a normalization-stable timestamp is untouched by the
timestamp normalization. -/
theorem padTimestamp_eq_self {c : comment.Comment}
    (h : comment.padTs c.Timestamp = c.Timestamp) : comment.padTimestamp c = c := by
  unfold comment.padTimestamp
  rw [h]

/-- `Write` of a bounded comment parses back to the padded comment. -/
theorem Parse_Write (c : comment.Comment) (hb : comment.uint32Bounded c) :
    comment.Parse (comment.Comment.Write c) = some (comment.padTimestamp c) :=
  comment.Parse_toJson (comment.padTimestamp c) ((uint32Bounded_pad c).mpr hb)

/-- A comment overlaps its own padded form as long as it is unresolved
or its timestamp is already normalization-stable — the strict overlap
check compares timestamps only for resolved comments. -/
theorem Overlaps_padTimestamp (c : comment.Comment)
    (h : c.Resolved.isSome = true → comment.padTs c.Timestamp = c.Timestamp) :
    comment.Comment.Overlaps c (comment.padTimestamp c) = true := by
  cases hres : c.Resolved with
  | some b =>
    rw [padTimestamp_eq_self (h (by rw [hres]; rfl)), comment.Overlaps_eq_V1]
    exact reviewV1.Overlaps_refl c
  | none =>
    rw [comment.Overlaps_eq_V1, reviewV1.Overlaps_eq_true_iff]
    refine ⟨?_, Or.inl ⟨hres, hres⟩, ?_⟩
    · unfold reviewV1.descriptionOverlaps
      rw [if_pos (show c.Description = (comment.padTimestamp c).Description from rfl)]
    · cases hlo : c.Location with
      | none => exact Or.inl ⟨rfl, hlo⟩
      | some l => exact Or.inr ⟨l, l, rfl, hlo, reviewV1.LocationOverlaps_refl l⟩

/-- The crucial second-pass fact: a comment that either overlapped an
entry of the parsed cache of the original notes, or whose serialized
form is among the extended notes, overlaps an entry of the parsed cache
of the extended notes — provided every original note parses to a
normalization-stable timestamp, every appended note is the `Write` of a
bounded comment whose timestamp is stable where resolved, and the hash
function does not collide on the parsed comments involved. -/
theorem hasOverlap_pav_extend (hashFn : Jval → String) (notes0 A : List Jval)
    (Hcanon : ∀ n ∈ notes0, ∀ e, comment.Parse n = some e →
        comment.padTs e.Timestamp = e.Timestamp)
    (HA : ∀ n ∈ A, ∃ cc, (comment.uint32Bounded cc ∧
        (cc.Resolved.isSome = true → comment.padTs cc.Timestamp = cc.Timestamp)) ∧
        n = comment.Comment.Write cc)
    (Hkey : ∀ e f : comment.Comment,
        (∃ n ∈ notes0 ++ A, comment.Parse n = some e) →
        (∃ n ∈ notes0 ++ A, comment.Parse n = some f) →
        hashFn e.serialize = hashFn f.serialize → e.serialize = f.serialize)
    (c : comment.Comment) (hbc : comment.uint32Bounded c)
    (hsc : c.Resolved.isSome = true → comment.padTs c.Timestamp = c.Timestamp)
    (hdi : mirror.hasOverlap c (comment.ParseAllValid hashFn notes0) = true ∨
        comment.Comment.Write c ∈ notes0 ++ A) :
    mirror.hasOverlap c (comment.ParseAllValid hashFn (notes0 ++ A)) = true := by
  have stable : ∀ n ∈ notes0 ++ A, ∀ e, comment.Parse n = some e →
      comment.padTs e.Timestamp = e.Timestamp := by
    intro n hn e hp
    rcases List.mem_append.mp hn with hn | hn
    · exact Hcanon n hn e hp
    · obtain ⟨cc, ⟨hbcc, _⟩, rfl⟩ := HA n hn
      rw [Parse_Write cc hbcc] at hp
      obtain rfl := (Option.some.inj hp).symm
      exact comment.padTs_idem cc.Timestamp
  have key_eq : ∀ e f : comment.Comment,
      (∃ n ∈ notes0 ++ A, comment.Parse n = some e) →
      (∃ n ∈ notes0 ++ A, comment.Parse n = some f) →
      comment.Comment.Hash hashFn e = comment.Comment.Hash hashFn f → e = f := by
    intro e f he hf hh
    obtain ⟨ne, hne, hpe⟩ := he
    obtain ⟨nf, hnf, hpf⟩ := hf
    have hser : e.serialize = f.serialize := Hkey e f ⟨ne, hne, hpe⟩ ⟨nf, hnf, hpf⟩ hh
    have hpad := serialize_inj (Parse_bounded ne e hpe) (Parse_bounded nf f hpf) hser
    rw [padTimestamp_eq_self (stable ne hne e hpe),
      padTimestamp_eq_self (stable nf hnf f hpf)] at hpad
    exact hpad
  rw [mirror.hasOverlap, List.any_eq_true]
  rcases hdi with hov | hmem
  · rw [mirror.hasOverlap, List.any_eq_true] at hov
    obtain ⟨kc, hkcmem, hov⟩ := hov
    rw [ParseAllValid_eq_foldl] at hkcmem
    have hnodup := pav_nodup hashFn notes0 [] (by simp)
    have hlk := mem_alookup_of_nodup _ kc.1 kc.2 hnodup hkcmem
    rcases pav_provenance hashFn notes0 [] kc.1 kc.2 hlk with hcon | ⟨⟨n', hm', hr'⟩, hk'⟩
    · exact absurd hcon (by simp [alookup])
    · have hfin : alookup (A.foldl (fun comments note =>
          (comment.Parse note).elim comments
            (fun c => aupdate comments (comment.Comment.Hash hashFn c) c))
          (notes0.foldl (fun comments note =>
            (comment.Parse note).elim comments
              (fun c => aupdate comments (comment.Comment.Hash hashFn c) c)) []))
          kc.1 = some kc.2 := by
        obtain ⟨e', h1, h2⟩ := pav_extend hashFn A _ kc.1 kc.2 hlk
        rcases h2 with rfl | ⟨nA, hnA, hrA, hkA⟩
        · exact h1
        · rw [key_eq e' kc.2 ⟨nA, List.mem_append_right notes0 hnA, hrA⟩
            ⟨n', List.mem_append_left A hm', hr'⟩ (by rw [hkA, hk'])] at h1
          exact h1
      refine ⟨(kc.1, kc.2), ?_, hov⟩
      rw [ParseAllValid_eq_foldl, List.foldl_append]
      exact alookup_mem _ kc.1 kc.2 hfin
  · obtain ⟨e, h1, ⟨n', hn', hr'⟩, h3⟩ := pav_mem_of_parse hashFn (notes0 ++ A) []
      (comment.Comment.Write c) (comment.padTimestamp c) hmem (Parse_Write c hbc)
    have he : e = comment.padTimestamp c :=
      key_eq e (comment.padTimestamp c) ⟨n', hn', hr'⟩
        ⟨comment.Comment.Write c, hmem, Parse_Write c hbc⟩ h3
    rw [he] at h1
    refine ⟨(comment.Comment.Hash hashFn (comment.padTimestamp c), comment.padTimestamp c),
      ?_, Overlaps_padTimestamp c hsc⟩
    rw [ParseAllValid_eq_foldl]
    exact alookup_mem _ _ _ h1

/-! ### Notes-store bookkeeping for the synchronization pass -/

theorem getNotes_appendNote (ns : mirror.NotesStore) (ref rev ref' rev' : String) (n : Jval) :
    mirror.getNotes (mirror.appendNote ns ref rev n) ref' rev' =
      if (ref, rev) = (ref', rev') then mirror.getNotes ns ref rev ++ [n]
      else mirror.getNotes ns ref' rev' := by
  unfold mirror.appendNote mirror.getNotes
  rw [alookup_aupdate]
  by_cases h : (ref, rev) = (ref', rev')
  · rw [if_pos h, if_pos h]
    rfl
  · rw [if_neg h, if_neg h]

theorem ListNotedRevisions_aupdate_ne (ref ref' rev : String) (v : List Jval)
    (h : ref ≠ ref') :
    ∀ ns : mirror.NotesStore,
      mirror.ListNotedRevisions (aupdate ns ((ref, rev)) v) ref' =
        mirror.ListNotedRevisions ns ref'
  | [] => by
    show mirror.ListNotedRevisions [((ref, rev), v)] ref' = mirror.ListNotedRevisions [] ref'
    unfold mirror.ListNotedRevisions
    rw [List.filter_cons, if_neg (by simp [h])]
  | (k, w) :: ns => by
    unfold aupdate
    by_cases hk : k = (ref, rev)
    · rw [if_pos hk]
      subst hk
      show mirror.ListNotedRevisions (((ref, rev), v) :: ns) ref' =
        mirror.ListNotedRevisions (((ref, rev), w) :: ns) ref'
      unfold mirror.ListNotedRevisions
      rw [List.filter_cons, List.filter_cons, if_neg (by simp [h]), if_neg (by simp [h])]
    · rw [if_neg hk]
      show mirror.ListNotedRevisions ((k, w) :: aupdate ns ((ref, rev)) v) ref' =
        mirror.ListNotedRevisions ((k, w) :: ns) ref'
      have IH := ListNotedRevisions_aupdate_ne ref ref' rev v h ns
      unfold mirror.ListNotedRevisions at IH ⊢
      rw [List.filter_cons, List.filter_cons]
      by_cases hp : (decide (k.1 = ref') && !w.isEmpty) = true
      · rw [if_pos ?c1, if_pos ?c2]
        case c1 => exact hp
        case c2 => exact hp
        rw [List.map_cons, List.map_cons, IH]
      · rw [if_neg ?c3, if_neg ?c4]
        case c3 => exact hp
        case c4 => exact hp
        exact IH

theorem ListNotedRevisions_appendNote (ns : mirror.NotesStore) (ref rev ref' : String)
    (n : Jval) (h : ref ≠ ref') :
    mirror.ListNotedRevisions (mirror.appendNote ns ref rev n) ref' =
      mirror.ListNotedRevisions ns ref' := by
  unfold mirror.appendNote
  exact ListNotedRevisions_aupdate_ne ref ref' rev _ h ns

theorem getExistingComments_present (st : mirror.MirrorState) (rev : String)
    (RC : List (String × comment.Comment))
    (h : alookup st.existingComments rev = some RC) :
    mirror.getExistingComments st rev = (RC, st) := by
  unfold mirror.getExistingComments
  rw [h]

/-- One review's harvesting loop, characterized: it only appends
`Write`s of loaded comments to the review's first-commit notes, leaves
all other state alone, and every loaded comment either overlapped the
cache it was checked against or had its serialization appended. -/
theorem harvestComments_spec (P : comment.Comment → Prop)
    (RC : List (String × comment.Comment)) (rev : String) :
    ∀ (cs : List comment.Comment) (st : mirror.MirrorState) (out : List (String × Jval))
      (res : mirror.MirrorState × List (String × Jval)),
      (∀ c ∈ cs, P c) →
      cs.foldl (fun acc c =>
        if mirror.hasOverlap c RC then acc
        else ({ acc.1 with
                  notes := mirror.appendNote acc.1.notes mirror.commentRef rev c.Write },
              acc.2 ++ [(rev, c.Write)])) (st, out) = res →
      res.1.processedState = st.processedState ∧
      res.1.openReviews = st.openReviews ∧
      res.1.existingComments = st.existingComments ∧
      mirror.ListNotedRevisions res.1.notes mirror.requestRef =
        mirror.ListNotedRevisions st.notes mirror.requestRef ∧
      (∀ rev', ∃ A, mirror.getNotes res.1.notes mirror.commentRef rev' =
          mirror.getNotes st.notes mirror.commentRef rev' ++ A ∧
          ∀ n ∈ A, ∃ cc, P cc ∧ n = comment.Comment.Write cc) ∧
      (∀ c ∈ cs, mirror.hasOverlap c RC = true ∨
          comment.Comment.Write c ∈ mirror.getNotes res.1.notes mirror.commentRef rev)
  | [], st, out, res, _, hres => by
    rw [List.foldl_nil] at hres
    subst hres
    exact ⟨rfl, rfl, rfl, rfl,
      fun rev' => ⟨[], (List.append_nil _).symm, by simp⟩,
      fun c hc => absurd hc (List.not_mem_nil _)⟩
  | c0 :: cs, st, out, res, hP, hres => by
    rw [List.foldl_cons] at hres
    by_cases hov : mirror.hasOverlap c0 RC = true
    · rw [if_pos hov] at hres
      obtain ⟨q1, q2, q3, q4, q5, q6⟩ := harvestComments_spec P RC rev cs st out res
        (fun c hc => hP c (List.mem_cons_of_mem _ hc)) hres
      refine ⟨q1, q2, q3, q4, q5, fun c hc => ?_⟩
      rcases List.mem_cons.mp hc with rfl | hc
      · exact Or.inl hov
      · exact q6 c hc
    · rw [if_neg hov] at hres
      obtain ⟨q1, q2, q3, q4, q5, q6⟩ := harvestComments_spec P RC rev cs _ _ res
        (fun c hc => hP c (List.mem_cons_of_mem _ hc)) hres
      dsimp only at q1 q2 q3 q4 q5
      refine ⟨q1, q2, q3, ?_, ?_, ?_⟩
      · rw [q4]
        exact ListNotedRevisions_appendNote st.notes mirror.commentRef rev
          mirror.requestRef c0.Write (by decide)
      · intro rev'
        obtain ⟨A, hA, hAP⟩ := q5 rev'
        rw [getNotes_appendNote] at hA
        by_cases hr : ((mirror.commentRef, rev)) = ((mirror.commentRef, rev'))
        · rw [if_pos hr] at hA
          have hrr : rev = rev' := congrArg Prod.snd hr
          subst hrr
          refine ⟨comment.Comment.Write c0 :: A, by rw [hA, List.append_assoc]; rfl, ?_⟩
          intro n hn
          rcases List.mem_cons.mp hn with rfl | hn
          · exact ⟨c0, hP c0 (List.mem_cons_self _ _), rfl⟩
          · exact hAP n hn
        · rw [if_neg hr] at hA
          exact ⟨A, hA, hAP⟩
      · intro c hc
        rcases List.mem_cons.mp hc with rfl | hc
        · refine Or.inr ?_
          obtain ⟨A, hA, _⟩ := q5 rev
          rw [hA, getNotes_appendNote, if_pos rfl]
          exact List.mem_append_left _ (List.mem_append_right _ (List.mem_cons_self _ _))
        · exact q6 c hc

/-- A harvesting loop in which every comment overlaps the cache appends
nothing and leaves the accumulator unchanged. -/
theorem harvestComments_noop (RC : List (String × comment.Comment)) (rev : String) :
    ∀ (cs : List comment.Comment) (st : mirror.MirrorState) (out : List (String × Jval)),
      (∀ c ∈ cs, mirror.hasOverlap c RC = true) →
      cs.foldl (fun acc c =>
        if mirror.hasOverlap c RC then acc
        else ({ acc.1 with
                  notes := mirror.appendNote acc.1.notes mirror.commentRef rev c.Write },
              acc.2 ++ [(rev, c.Write)])) (st, out) = (st, out)
  | [], _, _, _ => rfl
  | c :: cs, st, out, H => by
    rw [List.foldl_cons, if_pos (H c (List.mem_cons_self _ _))]
    exact harvestComments_noop RC rev cs st out
      (fun c' hc' => H c' (List.mem_cons_of_mem _ hc'))

/-- The harvesting pass over the open reviews, characterized: module
caches other than the notes are untouched (the per-review cache is
present for every processed revision, so no empty map is inserted),
request notes are untouched, only `Write`s of loaded comments are
appended, and every loaded comment either overlapped the cache of its
review's first commit or had its serialization appended. -/
theorem harvestFold_spec (P : comment.Comment → Prop)
    (M : String → List (String × comment.Comment)) :
    ∀ (rs : List mirror.PhabReview) (acc res : mirror.MirrorState × List (String × Jval)),
      (∀ r ∈ rs, ∀ rev, r.firstCommit = some rev →
          alookup acc.1.existingComments rev = some (M rev)) →
      (∀ r ∈ rs, ∀ c ∈ r.loadedComments, P c) →
      rs.foldl mirror.harvestReview acc = res →
      res.1.processedState = acc.1.processedState ∧
      res.1.openReviews = acc.1.openReviews ∧
      res.1.existingComments = acc.1.existingComments ∧
      mirror.ListNotedRevisions res.1.notes mirror.requestRef =
        mirror.ListNotedRevisions acc.1.notes mirror.requestRef ∧
      (∀ rev', ∃ A, mirror.getNotes res.1.notes mirror.commentRef rev' =
          mirror.getNotes acc.1.notes mirror.commentRef rev' ++ A ∧
          ∀ n ∈ A, ∃ cc, P cc ∧ n = comment.Comment.Write cc) ∧
      (∀ r ∈ rs, ∀ rev, r.firstCommit = some rev → ∀ c ∈ r.loadedComments,
          mirror.hasOverlap c (M rev) = true ∨
          comment.Comment.Write c ∈ mirror.getNotes res.1.notes mirror.commentRef rev)
  | [], acc, res, _, _, hres => by
    rw [List.foldl_nil] at hres
    subst hres
    exact ⟨rfl, rfl, rfl, rfl,
      fun rev' => ⟨[], (List.append_nil _).symm, by simp⟩,
      fun r hr => absurd hr (List.not_mem_nil _)⟩
  | r :: rs, acc, res, hM, hP, hres => by
    rw [List.foldl_cons] at hres
    cases hfc : r.firstCommit with
    | none =>
      have hid : mirror.harvestReview acc r = acc := by
        unfold mirror.harvestReview
        rw [hfc]
      rw [hid] at hres
      obtain ⟨q1, q2, q3, q4, q5, q6⟩ := harvestFold_spec P M rs acc res
        (fun r' hr' => hM r' (List.mem_cons_of_mem _ hr'))
        (fun r' hr' => hP r' (List.mem_cons_of_mem _ hr')) hres
      refine ⟨q1, q2, q3, q4, q5, fun r' hr' rev hrev => ?_⟩
      rcases List.mem_cons.mp hr' with rfl | hr'
      · rw [hfc] at hrev
        exact Option.noConfusion hrev
      · exact q6 r' hr' rev hrev
    | some rev =>
      have hlook := hM r (List.mem_cons_self _ _) rev hfc
      have hstep : r.loadedComments.foldl (fun acc2 c =>
          if mirror.hasOverlap c (M rev) then acc2
          else ({ acc2.1 with
                    notes := mirror.appendNote acc2.1.notes mirror.commentRef rev c.Write },
                acc2.2 ++ [(rev, c.Write)])) (acc.1, acc.2) = mirror.harvestReview acc r := by
        unfold mirror.harvestReview
        rw [hfc]
        dsimp only
        rw [getExistingComments_present acc.1 rev (M rev) hlook]
      obtain ⟨p1, p2, p3, p4, p5, p6⟩ := harvestComments_spec P (M rev) rev r.loadedComments
        acc.1 acc.2 (mirror.harvestReview acc r) (hP r (List.mem_cons_self _ _)) hstep
      obtain ⟨q1, q2, q3, q4, q5, q6⟩ := harvestFold_spec P M rs (mirror.harvestReview acc r)
        res
        (fun r' hr' rev' hrev' => by
          rw [p3]
          exact hM r' (List.mem_cons_of_mem _ hr') rev' hrev')
        (fun r' hr' => hP r' (List.mem_cons_of_mem _ hr')) hres
      refine ⟨q1.trans p1, q2.trans p2, q3.trans p3, q4.trans p4, ?_, ?_⟩
      · intro rev'
        obtain ⟨A2, hA2, hA2P⟩ := q5 rev'
        obtain ⟨A1, hA1, hA1P⟩ := p5 rev'
        refine ⟨A1 ++ A2, by rw [hA2, hA1, List.append_assoc], fun n hn => ?_⟩
        rcases List.mem_append.mp hn with hn | hn
        · exact hA1P n hn
        · exact hA2P n hn
      · intro r' hr' rev0 hrev0 c hc
        rcases List.mem_cons.mp hr' with rfl | hr'
        · have hrev : rev0 = rev := by
            rw [hfc] at hrev0
            exact (Option.some.inj hrev0).symm
          subst hrev
          rcases p6 c hc with h | h
          · exact Or.inl h
          · refine Or.inr ?_
            obtain ⟨A2, hA2, _⟩ := q5 rev0
            rw [hA2]
            exact List.mem_append_left _ h
        · exact q6 r' hr' rev0 hrev0 c hc

/-- A harvesting pass in which, for every open review with a first
commit, the cache holds an entry every loaded comment overlaps, is a
no-op. -/
theorem harvestFold_noop :
    ∀ (rs : List mirror.PhabReview) (st : mirror.MirrorState) (out : List (String × Jval)),
      (∀ r ∈ rs, ∀ rev, r.firstCommit = some rev →
          ∃ RC, alookup st.existingComments rev = some RC ∧
            ∀ c ∈ r.loadedComments, mirror.hasOverlap c RC = true) →
      rs.foldl mirror.harvestReview (st, out) = (st, out)
  | [], _, _, _ => rfl
  | r :: rs, st, out, H => by
    rw [List.foldl_cons]
    have hid : mirror.harvestReview (st, out) r = (st, out) := by
      cases hfc : r.firstCommit with
      | none =>
        unfold mirror.harvestReview
        rw [hfc]
      | some rev =>
        obtain ⟨RC, hlook, hall⟩ := H r (List.mem_cons_self _ _) rev hfc
        unfold mirror.harvestReview
        rw [hfc]
        dsimp only
        rw [getExistingComments_present st rev RC hlook]
        exact harvestComments_noop RC rev r.loadedComments st out hall
    rw [hid]
    exact harvestFold_noop rs st out (fun r' hr' => H r' (List.mem_cons_of_mem _ hr'))

theorem refreshState_processed (hashFn : Jval → String)
    (stateHashFn : mirror.NotesStore → String) (reviews : List mirror.PhabReview)
    (st : mirror.MirrorState) (h : st.processedState = some (stateHashFn st.notes)) :
    mirror.refreshState hashFn stateHashFn reviews st = st := by
  unfold mirror.refreshState
  dsimp only
  rw [if_pos h]

theorem refreshState_not_processed (hashFn : Jval → String)
    (stateHashFn : mirror.NotesStore → String) (reviews : List mirror.PhabReview)
    (st : mirror.MirrorState) (h : ¬ st.processedState = some (stateHashFn st.notes)) :
    mirror.refreshState hashFn stateHashFn reviews st = { st with
      existingComments := (mirror.ListNotedRevisions st.notes mirror.requestRef).foldl
        (fun ec revision => aupdate ec revision
          (comment.ParseAllValid hashFn
            (mirror.getNotes st.notes mirror.commentRef revision)))
        st.existingComments,
      openReviews := reviews,
      processedState := some (stateHashFn st.notes) } := by
  unfold mirror.refreshState
  dsimp only
  rw [if_neg h]

theorem mirrorRepoToReview_eq (hashFn : Jval → String)
    (stateHashFn : mirror.NotesStore → String) (reviews : List mirror.PhabReview)
    (st : mirror.MirrorState) :
    mirror.mirrorRepoToReview hashFn stateHashFn reviews st =
      (mirror.refreshState hashFn stateHashFn reviews st).openReviews.foldl
        mirror.harvestReview (mirror.refreshState hashFn stateHashFn reviews st, []) := rfl

/-- A notes store whose entries under the comment ref are all empty has
no comment notes for any revision. -/
theorem getNotes_commentRef_nil :
    ∀ ns : mirror.NotesStore,
      (∀ e ∈ ns, ¬ e.1.1 = mirror.commentRef ∨ e.2 = []) →
      ∀ rev, mirror.getNotes ns mirror.commentRef rev = []
  | [], _, rev => rfl
  | (k, w) :: ns, H, rev => by
    unfold mirror.getNotes alookup
    by_cases hk : k = (mirror.commentRef, rev)
    · rw [if_pos hk]
      rcases H (k, w) (List.mem_cons_self _ _) with h | h
      · exact absurd (by rw [hk]) h
      · have h' : w = [] := h
        rw [h']
        rfl
    · rw [if_neg hk]
      have := getNotes_commentRef_nil ns (fun e he => H e (List.mem_cons_of_mem _ he)) rev
      unfold mirror.getNotes at this
      exact this

/-! ## The claims -/

/-- C2: `FilterOverlapping` returns exactly the candidates that overlap
no excluded comment.  For the map variant (candidates keyed by content
hash): no returned comment overlaps an element of the exclusion list
(in either argument order), and — when the map is well-formed, i.e. its
values are pairwise distinct as content-hash keying guarantees — every
stored comment overlapping no exclusion appears in the result exactly
once.  For the thread-forest variant: the recursion tests each parent
and each reply independently, no returned comment overlaps an element
of the exclusion list, and every node comment overlapping no exclusion
appears exactly as often as it occurs among the forest's nodes. -/
theorem C2_filter_overlapping_correct (m : reviewV1.CommentMap)
    (threads : List CommentThread) (E : List comment.Comment) :
    (∀ c ∈ reviewV1.CommentMap.FilterOverlapping m E, ∀ e ∈ E,
        reviewV1.Overlaps e c = false ∧ reviewV1.Overlaps c e = false) ∧
    ((m.map Prod.snd).Nodup →
      ∀ c ∈ m.map Prod.snd, (∀ e ∈ E, reviewV1.Overlaps e c = false) →
        (reviewV1.CommentMap.FilterOverlapping m E).count c = 1) ∧
    (∀ c ∈ reviewV2.FilterOverlapping threads E, ∀ e ∈ E,
        reviewV2.Overlaps e c = false ∧ reviewV2.Overlaps c e = false) ∧
    (∀ c, (∀ e ∈ E, reviewV2.Overlaps e c = false) →
      (reviewV2.FilterOverlapping threads E).count c = (flattenForest threads).count c) := by
  have hall : ∀ (c : comment.Comment) (f : comment.Comment → Bool),
      ((E.all fun e => !f e) = true) ↔ (∀ e ∈ E, f e = false) := by
    intro c f
    rw [List.all_eq_true]
    constructor
    · intro h e he
      have := h e he
      simpa using this
    · intro h e he
      simpa using h e he
  refine ⟨?_, ?_, ?_, ?_⟩
  · intro c hc e he
    rw [reviewV1.CommentMap.FilterOverlapping_eq, List.mem_filter] at hc
    have h1 : reviewV1.Overlaps e c = false := ((hall c _).mp hc.2) e he
    exact ⟨h1, by rw [reviewV1.Overlaps_symm]; exact h1⟩
  · intro hnd c hc hno
    rw [reviewV1.CommentMap.FilterOverlapping_eq]
    rw [List.count_filter (by exact (hall c _).mpr hno)]
    exact List.count_eq_one_of_mem hnd hc
  · intro c hc e he
    rw [reviewV2.FilterOverlapping_eq_v2, List.mem_filter] at hc
    have h1 : reviewV2.Overlaps e c = false := ((hall c _).mp hc.2) e he
    exact ⟨h1, by rw [reviewV2.Overlaps_symm_v2]; exact h1⟩
  · intro c hno
    rw [reviewV2.FilterOverlapping_eq_v2]
    rw [List.count_filter (by exact (hall c _).mpr hno)]

/-- Witness for C2 at a concrete one-entry map, one-node forest and
one-element exclusion list. -/
theorem C2_filter_overlapping_correct_witness :
    (reviewV1.CommentMap.FilterOverlapping [("k", { Description := "x" })]
        [{ Description := "y" }]).count { Description := "x" } = 1 ∧
    (reviewV2.FilterOverlapping [CommentThread.mk "k" { Description := "x" } []]
        [{ Description := "y" }]).count { Description := "x" } =
      (flattenForest [CommentThread.mk "k" { Description := "x" } []]).count
        { Description := "x" } := by
  obtain ⟨-, h2, -, h4⟩ :=
    C2_filter_overlapping_correct [("k", { Description := "x" })]
      [CommentThread.mk "k" { Description := "x" } []] [{ Description := "y" }]
  exact ⟨h2 (by decide) { Description := "x" } (by decide) (by decide),
    h4 { Description := "x" } (by decide)⟩

/-- C3: the overlap predicate is symmetric.  For every pair of comments
`a` and `b`, `Overlaps(a, b)` returns the same boolean as
`Overlaps(b, a)`, in both the strict variant and the relaxed variant of
the `review` package (and hence also in the `comment` package, whose
predicate coincides with the strict variant). -/
theorem C3_overlaps_symmetric (a b : comment.Comment) :
    reviewV1.Overlaps a b = reviewV1.Overlaps b a ∧
    reviewV2.Overlaps a b = reviewV2.Overlaps b a ∧
    comment.Comment.Overlaps a b = comment.Comment.Overlaps b a :=
  ⟨reviewV1.Overlaps_symm a b, reviewV2.Overlaps_symm_v2 a b,
    by rw [comment.Overlaps_eq_V1]; exact reviewV1.Overlaps_symm a b⟩

/-- C1: on the five-transaction mock log `(u1,reject,1), (u1,accept,2),
(u1,reject,3), (u2,reject,4), (u1,accept,5)` — `differential:action`
transactions with no comment payload — `LoadComments` returns exactly
the eight expected comments in order (for every digest function), and
in general an accept-action transaction appends one synthetic child
`{author, timestamp = the accept's time, resolved = true, parent = a
previously recorded rejection hash}` per entry of the actor's
accumulated rejection list — which the accept step leaves untouched,
never clearing it — immediately before the accept's own top-level
comment. -/
theorem C1_load_comments_reconstruction :
    (∀ hashFn : Jval → String,
      arcanist.LoadComments hashFn { ID := "testReview" } arcanist.MockReadTransactions
        arcanist.MockReadTransactionComment arcanist.MockLookupUser =
        some (arcanist.SetupExpectedComments hashFn)) ∧
    (∀ (hashFn : Jval → String) (rTC : arcanist.ReadTransactionComment)
        (lu : arcanist.UserLookup) (s : arcanist.LoadState)
        (t : arcanist.differentialDatabaseTransaction) (author : arcanist.user)
        (s' : arcanist.LoadState),
      lu t.AuthorPHID = some author →
      t.TxType = "differential:action" →
      t.NewValue = some "\"accept\"" →
      arcanist.processTransaction hashFn rTC lu s t = some s' →
      ∃ c : comment.Comment,
        s'.comments = s.comments ++
          ((alookup s.rejectionCommentsByUser author.UserName).getD []).map
            (fun rejectionCommentHash =>
              { Author := c.Author, Timestamp := c.Timestamp,
                Resolved := some true, Parent := rejectionCommentHash }) ++ [c] ∧
        c.Resolved = some true ∧ c.Timestamp = toString t.DateCreated ∧
        s'.rejectionCommentsByUser = s.rejectionCommentsByUser) := by
  constructor
  · intro hashFn
    rfl
  · intro hashFn rTC lu s t author s' hlu htype hnew hpt
    unfold arcanist.processTransaction at hpt
    rw [hlu] at hpt
    dsimp only at hpt
    cases hpay : arcanist.applyPayload hashFn rTC s t (arcanist.buildBase author t) with
    | none => rw [hpay] at hpt; exact absurd hpt (by simp)
    | some c0 =>
      rw [hpay] at hpt
      dsimp only at hpt
      rw [arcanist.applyAction_accept htype hnew] at hpt
      dsimp only at hpt
      have hnec : arcanist.nonEmptyComment ({ c0 with Resolved := some true } : comment.Comment) := by
        unfold arcanist.nonEmptyComment
        exact Or.inr (Or.inr (Or.inr (by simp)))
      rw [if_pos hnec] at hpt
      cases Option.some.inj hpt
      obtain ⟨hts, -, -⟩ := arcanist.applyPayload_preserves hpay
      exact ⟨{ c0 with Resolved := some true }, rfl, rfl, hts, rfl⟩

/-- Witness for the general accept rule of C1: the mock log's fifth
transaction applied to a state in which `u1` has one recorded rejection
hash yields that rejection's synthetic child followed by the accept's
own comment. -/
theorem C1_load_comments_reconstruction_witness :
    ∃ c : comment.Comment,
      ([{ Timestamp := "5", Author := "u1@gmail.com", Parent := "h1", Resolved := some true },
        { Timestamp := "5", Author := "u1@gmail.com", Resolved := some true }] :
          List comment.Comment) =
        [] ++
          (["h1"].map fun rejectionCommentHash =>
            ({ Author := c.Author, Timestamp := c.Timestamp, Resolved := some true,
               Parent := rejectionCommentHash } : comment.Comment)) ++ [c] ∧
      c.Resolved = some true ∧ c.Timestamp = "5" ∧
      ([("u1", ["h1"])] : List (String × List String)) = [("u1", ["h1"])] := by
  exact C1_load_comments_reconstruction.2 (fun _ => "h") arcanist.MockReadTransactionComment
    arcanist.MockLookupUser
    { comments := [], commentsByPHID := [], rejectionCommentsByUser := [("u1", ["h1"])] }
    (arcanist.BuildTransactionForUser "u1" "\"accept\"" 5)
    { PHID := "123", UserName := "u1", Email := "u1@gmail.com" }
    { comments :=
        [{ Timestamp := "5", Author := "u1@gmail.com", Parent := "h1", Resolved := some true },
         { Timestamp := "5", Author := "u1@gmail.com", Resolved := some true }],
      commentsByPHID :=
        [("123", { Timestamp := "5", Author := "u1@gmail.com", Resolved := some true })],
      rejectionCommentsByUser := [("u1", ["h1"])] }
    rfl rfl rfl rfl

/-- C6: causal-order invariant of reconstruction.  For every transaction
log, identity lookup and digest function, every comment in the list
returned by `LoadComments` whose `Parent` field is non-empty has
`Parent` equal to the content hash of some comment appearing strictly
earlier in that list (covering both reply-to comments and the synthetic
accept-derived children). -/
theorem C6_parent_causality (hashFn : Jval → String)
    (review : arcanist.differentialReview) (rT : arcanist.ReadTransactions)
    (rTC : arcanist.ReadTransactionComment) (lu : arcanist.UserLookup)
    (l : List comment.Comment)
    (h : arcanist.LoadComments hashFn review rT rTC lu = some l) :
    ∀ (i : Nat) (hi : i < l.length), (l[i]).Parent ≠ "" →
      ∃ (j : Nat) (hj : j < l.length), j < i ∧
        comment.Comment.Hash hashFn l[j] = (l[i]).Parent := by
  unfold arcanist.LoadComments at h
  cases hrt : rT review.PHID with
  | none => rw [hrt] at h; exact absurd h (by simp)
  | some txs =>
    rw [hrt] at h
    dsimp only at h
    cases hrun : arcanist.runTransactions hashFn rTC lu {} txs with
    | none => rw [hrun] at h; exact absurd h (by simp)
    | some sf =>
      rw [hrun] at h
      cases Option.some.inj h
      exact (arcanist.runTransactions_StateOK hrun (arcanist.StateOK_init hashFn)).2.2

/-- Witness for C6: in the mock scenario's output, the second comment's
parent is the hash of the first. -/
theorem C6_parent_causality_witness :
    ∃ (j : Nat) (hj : j < (arcanist.SetupExpectedComments fun _ => "h").length),
      j < 1 ∧
      comment.Comment.Hash (fun _ => "h")
          ((arcanist.SetupExpectedComments fun _ => "h").get ⟨j, hj⟩) =
        ((arcanist.SetupExpectedComments fun _ => "h").get ⟨1, by decide⟩).Parent :=
  C6_parent_causality (fun _ => "h") { ID := "testReview" } arcanist.MockReadTransactions
    arcanist.MockReadTransactionComment arcanist.MockLookupUser
    (arcanist.SetupExpectedComments fun _ => "h") rfl 1 (by decide) (by decide)

/-- C7 counterexample: a publish-trigger noise transaction (no comment
payload, no action value) is dropped *and* leaves no trace: the
reconstruction of a log containing it is identical to the
reconstruction of the log without it — in particular the later accept
by the same actor synthesizes exactly the same children — and the
dropped transaction leaves the loop state exactly unchanged (so it does
*not* influence the rejection-history list consulted by later accept
actions). -/
theorem C7_counterexample :
    arcanist.LoadComments (fun _ => "h") { ID := "testReview" }
      (fun _ => some
        [{ PHID := "n1", AuthorPHID := "u1", DateCreated := 1, TxType := "core:comment" },
         arcanist.BuildTransactionForUser "u1" "\"reject\"" 2,
         arcanist.BuildTransactionForUser "u1" "\"accept\"" 3])
      arcanist.MockReadTransactionComment arcanist.MockLookupUser =
    arcanist.LoadComments (fun _ => "h") { ID := "testReview" }
      (fun _ => some
        [arcanist.BuildTransactionForUser "u1" "\"reject\"" 2,
         arcanist.BuildTransactionForUser "u1" "\"accept\"" 3])
      arcanist.MockReadTransactionComment arcanist.MockLookupUser ∧
    arcanist.processTransaction (fun _ => "h") arcanist.MockReadTransactionComment
      arcanist.MockLookupUser {}
      { PHID := "n1", AuthorPHID := "u1", DateCreated := 1, TxType := "core:comment" } =
      some ({} : arcanist.LoadState) :=
  ⟨rfl, rfl⟩

/-- C7 (amended): a transaction whose reconstructed comment is empty
(empty parent, no location, empty description, unset resolved bit) is
dropped by `LoadComments` — it emits no comment — and it does **not**
influence the state used for subsequent transactions: the loop state is
left exactly as it was, so deleting the transaction from the log yields
the same reconstruction. -/
theorem C7_empty_transaction_dropped :
    (∀ (hashFn : Jval → String) (rTC : arcanist.ReadTransactionComment)
        (lu : arcanist.UserLookup) (s : arcanist.LoadState)
        (t : arcanist.differentialDatabaseTransaction) (author : arcanist.user)
        (c0 : comment.Comment),
      lu t.AuthorPHID = some author →
      arcanist.applyPayload hashFn rTC s t (arcanist.buildBase author t) = some c0 →
      ¬ arcanist.nonEmptyComment (arcanist.applyAction s author.UserName t c0).1 →
      arcanist.processTransaction hashFn rTC lu s t = some s) ∧
    (∀ (hashFn : Jval → String) (rTC : arcanist.ReadTransactionComment)
        (lu : arcanist.UserLookup)
        (L1 : List arcanist.differentialDatabaseTransaction)
        (t : arcanist.differentialDatabaseTransaction)
        (L2 : List arcanist.differentialDatabaseTransaction)
        (s0 s1 : arcanist.LoadState) (author : arcanist.user) (c0 : comment.Comment),
      arcanist.runTransactions hashFn rTC lu s0 L1 = some s1 →
      lu t.AuthorPHID = some author →
      arcanist.applyPayload hashFn rTC s1 t (arcanist.buildBase author t) = some c0 →
      ¬ arcanist.nonEmptyComment (arcanist.applyAction s1 author.UserName t c0).1 →
      arcanist.runTransactions hashFn rTC lu s0 (L1 ++ t :: L2) =
        arcanist.runTransactions hashFn rTC lu s0 (L1 ++ L2)) := by
  refine ⟨fun hashFn rTC lu s t author c0 hlu hpay hempty =>
    arcanist.processTransaction_id hlu hpay hempty, ?_⟩
  intro hashFn rTC lu L1 t L2 s0 s1 author c0 h1 hlu hpay hempty
  rw [arcanist.runTransactions_append, arcanist.runTransactions_append, h1]
  dsimp only
  rw [arcanist.runTransactions, arcanist.processTransaction_id hlu hpay hempty]

/-- Witness for the amended C7: dropping the concrete noise transaction
from the front of a reject/accept log does not change the
reconstruction. -/
theorem C7_empty_transaction_dropped_witness :
    arcanist.runTransactions (fun _ => "h") arcanist.MockReadTransactionComment
      arcanist.MockLookupUser {}
      ([] ++
        ({ PHID := "n1", AuthorPHID := "u1", DateCreated := 1, TxType := "core:comment" } :
            arcanist.differentialDatabaseTransaction) ::
          [arcanist.BuildTransactionForUser "u1" "\"reject\"" 2,
           arcanist.BuildTransactionForUser "u1" "\"accept\"" 3]) =
    arcanist.runTransactions (fun _ => "h") arcanist.MockReadTransactionComment
      arcanist.MockLookupUser {}
      ([] ++
        [arcanist.BuildTransactionForUser "u1" "\"reject\"" 2,
         arcanist.BuildTransactionForUser "u1" "\"accept\"" 3]) :=
  C7_empty_transaction_dropped.2 (fun _ => "h") arcanist.MockReadTransactionComment
    arcanist.MockLookupUser []
    { PHID := "n1", AuthorPHID := "u1", DateCreated := 1, TxType := "core:comment" }
    [arcanist.BuildTransactionForUser "u1" "\"reject\"" 2,
     arcanist.BuildTransactionForUser "u1" "\"accept\"" 3]
    {} {} { PHID := "123", UserName := "u1", Email := "u1@gmail.com" }
    { Timestamp := "1", Author := "u1@gmail.com" }
    rfl rfl rfl (by decide)

/-- C4 counterexample: in the relaxed variant two comments anchored at
the same file and line overlap although exactly one of them has its
resolved bit set, so the resolved-state requirement is *not* part of
every overlap decision. -/
theorem C4_counterexample :
    reviewV2.Overlaps
        { Description := "d", Location := some ⟨"C", "f.txt", some ⟨3⟩⟩, Resolved := some true }
        { Description := "d", Location := some ⟨"C", "f.txt", some ⟨3⟩⟩ } = true ∧
    ({ Description := "d", Location := some ⟨"C", "f.txt", some ⟨3⟩⟩,
        Resolved := some true } : comment.Comment).Resolved.isSome = true ∧
    ({ Description := "d", Location := some ⟨"C", "f.txt", some ⟨3⟩⟩ } :
        comment.Comment).Resolved = none := by
  decide

/-- C4 (amended): resolved-state compatibility is part of every overlap
decision in the strict variant (both in package `review` and in package
`comment`): overlapping comments have their resolved bits both unset or
both set to the same value with equal timestamps.  In the relaxed
variant the requirement applies exactly to whole-revision comparisons
(both locations absent, or a shared location with an empty path); for
comments anchored at a named file the relaxed variant ignores the
resolved bits entirely. -/
theorem C4_resolved_state_scope :
    (∀ a b : comment.Comment, reviewV1.Overlaps a b = true →
      ((a.Resolved = none ∧ b.Resolved = none) ∨
        ∃ r, a.Resolved = some r ∧ b.Resolved = some r ∧ a.Timestamp = b.Timestamp)) ∧
    (∀ a b : comment.Comment, comment.Comment.Overlaps a b = true →
      ((a.Resolved = none ∧ b.Resolved = none) ∨
        ∃ r, a.Resolved = some r ∧ b.Resolved = some r ∧ a.Timestamp = b.Timestamp)) ∧
    (∀ a b : comment.Comment, reviewV2.Overlaps a b = true →
      ((a.Location = none ∧ b.Location = none) ∨
        ∃ l, a.Location = some l ∧ l.Path = "") →
      ((a.Resolved = none ∧ b.Resolved = none) ∨
        ∃ r, a.Resolved = some r ∧ b.Resolved = some r)) ∧
    (∀ (a b : comment.Comment) (l l' : comment.CommentLocation),
      a.Location = some l → b.Location = some l' → l.Path ≠ "" →
      reviewV2.descriptionOverlaps a b = true → reviewV2.LocationOverlaps l l' = true →
      reviewV2.Overlaps a b = true) := by
  refine ⟨?_, ?_, ?_, ?_⟩
  · intro a b h
    exact ((reviewV1.Overlaps_eq_true_iff a b).mp h).2.1
  · intro a b h
    rw [comment.Overlaps_eq_V1] at h
    exact ((reviewV1.Overlaps_eq_true_iff a b).mp h).2.1
  · intro a b h hw
    rw [reviewV2.Overlaps_eq_true_iff_v2] at h
    obtain ⟨-, hl⟩ := h
    rcases hl with ⟨h1, h2, h3⟩ | ⟨l0, l0', ha, hb, hlo, hpc⟩
    · exact (reviewV2.resolvedOverlaps_eq_true_iff a b).mp h3
    · rcases hw with ⟨ha', -⟩ | ⟨l, hal, hpath⟩
      · rw [ha'] at ha; exact absurd ha (by simp)
      · have hll : l0 = l := by rw [hal] at ha; exact (Option.some.inj ha).symm
        exact (reviewV2.resolvedOverlaps_eq_true_iff a b).mp
          (hpc (by rw [hll]; exact hpath))
  · intro a b l l' hla hlb hne hd hlo
    rw [reviewV2.Overlaps_eq_true_iff_v2]
    exact ⟨hd, Or.inr ⟨l, l', hla, hlb, hlo, fun hp => absurd hp hne⟩⟩

/-- Witness for the amended C4 at concrete comments: a resolved
whole-revision self-overlap (strict and relaxed requirements), and the
file-anchored pair from the counterexample (no resolved requirement). -/
theorem C4_resolved_state_scope_witness :
    ((({ Description := "d", Resolved := some true, Timestamp := "1" } :
        comment.Comment).Resolved = none ∧
      ({ Description := "d", Resolved := some true, Timestamp := "1" } :
        comment.Comment).Resolved = none) ∨
      ∃ r, ({ Description := "d", Resolved := some true, Timestamp := "1" } :
          comment.Comment).Resolved = some r ∧
        ({ Description := "d", Resolved := some true, Timestamp := "1" } :
          comment.Comment).Resolved = some r ∧
        ({ Description := "d", Resolved := some true, Timestamp := "1" } :
          comment.Comment).Timestamp =
          ({ Description := "d", Resolved := some true, Timestamp := "1" } :
            comment.Comment).Timestamp) ∧
    reviewV2.Overlaps
      { Description := "d", Location := some ⟨"C", "f.txt", some ⟨3⟩⟩, Resolved := some true }
      { Description := "d", Location := some ⟨"C", "f.txt", some ⟨3⟩⟩ } = true := by
  obtain ⟨t1, -, -, t4⟩ := C4_resolved_state_scope
  refine ⟨t1 _ _ (by decide), ?_⟩
  exact t4 _ _ ⟨"C", "f.txt", some ⟨3⟩⟩ ⟨"C", "f.txt", some ⟨3⟩⟩ rfl rfl
    (by decide) (by decide) (by decide)

/-- C5 counterexample: for a comment whose resolved bit is set, the
re-post of its quoted form (same location, attribution-prefixed
description, unset resolved bit) does **not** overlap it, in any
variant: the resolved-state check fails. -/
theorem C5_counterexample :
    ({ Timestamp := "2", Author := "bot", Description := "a:\n\nd" } :
        comment.Comment).Description =
      reviewV1.QuoteDescription
        { Timestamp := "1", Author := "a", Description := "d", Resolved := some true } ∧
    reviewV1.Overlaps
      { Timestamp := "1", Author := "a", Description := "d", Resolved := some true }
      { Timestamp := "2", Author := "bot", Description := "a:\n\nd" } = false ∧
    reviewV2.Overlaps
      { Timestamp := "1", Author := "a", Description := "d", Resolved := some true }
      { Timestamp := "2", Author := "bot", Description := "a:\n\nd" } = false ∧
    comment.Comment.Overlaps
      { Timestamp := "1", Author := "a", Description := "d", Resolved := some true }
      { Timestamp := "2", Author := "bot", Description := "a:\n\nd" } = false := by
  decide

/-- C5 (amended): for every comment `c` whose resolved bit is unset,
re-posting it on behalf of its author does overlap it: any comment `q`
with the same location, an unset resolved bit, and a description equal
to `c.author + ":\n\n" + c.description` (or its backslash-escaped-newline
form) satisfies `Overlaps(c, q)`, in the strict variant, the relaxed
variant and the `comment` package, regardless of `q`'s own author and
timestamp. -/
theorem C5_quote_overlaps (c q : comment.Comment)
    (hc : c.Resolved = none) (hq : q.Resolved = none) (hloc : q.Location = c.Location)
    (hdesc : q.Description = reviewV1.QuoteDescription c ∨
      q.Description = stringsReplace (reviewV1.QuoteDescription c) "\n" "\\n") :
    reviewV1.Overlaps c q = true ∧ reviewV2.Overlaps c q = true ∧
    comment.Comment.Overlaps c q = true := by
  have hquote : reviewV1.isQuote q c = true := reviewV1.isQuote_of_eq hdesc
  have hd : reviewV1.descriptionOverlaps c q = true :=
    reviewV1.descriptionOverlaps_of_isQuote_right hquote
  have hres : reviewV2.resolvedOverlaps c q = true := by
    rw [reviewV2.resolvedOverlaps_eq_true_iff]
    exact Or.inl ⟨hc, hq⟩
  have hv1 : reviewV1.Overlaps c q = true := by
    rw [reviewV1.Overlaps_eq_true_iff]
    refine ⟨hd, Or.inl ⟨hc, hq⟩, ?_⟩
    cases hcl : c.Location with
    | none => exact Or.inl ⟨rfl, by rw [hloc]; exact hcl⟩
    | some l => exact Or.inr ⟨l, l, rfl, by rw [hloc]; exact hcl,
        reviewV1.LocationOverlaps_refl l⟩
  refine ⟨hv1, ?_, by rw [comment.Overlaps_eq_V1]; exact hv1⟩
  rw [reviewV2.Overlaps_eq_true_iff_v2]
  refine ⟨by rw [reviewV2.descriptionOverlaps_eq_V1]; exact hd, ?_⟩
  cases hcl : c.Location with
  | none => exact Or.inl ⟨rfl, by rw [hloc]; exact hcl, hres⟩
  | some l => exact Or.inr ⟨l, l, rfl, by rw [hloc]; exact hcl,
      by rw [reviewV2.LocationOverlaps_eq_V1]; exact reviewV1.LocationOverlaps_refl l,
      fun _ => hres⟩

/-- Witness for the amended C5 at a concrete comment and its quote. -/
theorem C5_quote_overlaps_witness :
    reviewV1.Overlaps { Author := "a", Description := "d" }
      { Author := "bot", Timestamp := "9", Description := "a:\n\nd" } = true ∧
    reviewV2.Overlaps { Author := "a", Description := "d" }
      { Author := "bot", Timestamp := "9", Description := "a:\n\nd" } = true ∧
    comment.Comment.Overlaps { Author := "a", Description := "d" }
      { Author := "bot", Timestamp := "9", Description := "a:\n\nd" } = true :=
  C5_quote_overlaps { Author := "a", Description := "d" }
    { Author := "bot", Timestamp := "9", Description := "a:\n\nd" }
    rfl rfl rfl (Or.inl (by decide))

/-- C8: serialization round-trip preserves identity.  Every comment
(with its line number within the `uint32` range, as Go's type system
guarantees) serializes successfully, parsing the serialized note yields
a comment whose content hash equals the original's — the zero-padding
of short timestamps applied before hashing is idempotent, so the parsed
value re-serializes to the same canonical bytes. -/
theorem C8_serialize_roundtrip (hashFn : Jval → String) (c : comment.Comment)
    (hb : comment.uint32Bounded c) :
    ∃ c' : comment.Comment, comment.Parse c.Write = some c' ∧
      comment.Comment.Hash hashFn c' = comment.Comment.Hash hashFn c ∧
      c'.serialize = c.serialize := by
  refine ⟨comment.padTimestamp c, ?_, ?_, ?_⟩
  · exact comment.Parse_toJson (comment.padTimestamp c) hb
  · unfold comment.Comment.Hash comment.Comment.serialize
    rw [comment.padTimestamp_idem]
  · unfold comment.Comment.serialize
    rw [comment.padTimestamp_idem]

/-- Witness for C8 at a concrete resolved comment with a short
timestamp and a line-anchored location. -/
theorem C8_serialize_roundtrip_witness :
    ∃ c' : comment.Comment,
      comment.Parse
          (comment.Comment.Write
            { Timestamp := "3", Author := "a",
              Location := some ⟨"C", "f", some ⟨7⟩⟩,
              Description := "d", Resolved := some true }) = some c' ∧
      comment.Comment.Hash (fun _ => "h") c' =
        comment.Comment.Hash (fun _ => "h")
          { Timestamp := "3", Author := "a",
            Location := some ⟨"C", "f", some ⟨7⟩⟩,
            Description := "d", Resolved := some true } ∧
      c'.serialize =
        comment.Comment.serialize
          { Timestamp := "3", Author := "a",
            Location := some ⟨"C", "f", some ⟨7⟩⟩,
            Description := "d", Resolved := some true } :=
  C8_serialize_roundtrip (fun _ => "h")
    { Timestamp := "3", Author := "a", Location := some ⟨"C", "f", some ⟨7⟩⟩,
      Description := "d", Resolved := some true }
    (by unfold comment.uint32Bounded; decide)

/-- C10 (implicit): `Overlaps` never consults the `Parent` field of
either argument — replacing the parents by arbitrary hash strings `p`
and `q` leaves every variant's verdict unchanged — and consequently a
threaded reply and an unrelated top-level comment that agree on all the
fields `Overlaps` does consult (description, location, resolved state
and, in the strict variant, timestamp) are judged to be the same
comment by the deduplicator. -/
theorem C10_overlaps_ignores_parent (a b : comment.Comment) (p q : String) :
    (reviewV1.Overlaps { a with Parent := p } { b with Parent := q } = reviewV1.Overlaps a b ∧
     reviewV2.Overlaps { a with Parent := p } { b with Parent := q } = reviewV2.Overlaps a b ∧
     comment.Comment.Overlaps { a with Parent := p } { b with Parent := q } =
       comment.Comment.Overlaps a b) ∧
    (reviewV1.Overlaps { a with Parent := p } a = true ∧
     reviewV2.Overlaps { a with Parent := p } a = true ∧
     comment.Comment.Overlaps { a with Parent := p } a = true) :=
  ⟨⟨rfl, rfl, rfl⟩,
    ⟨(rfl : reviewV1.Overlaps { a with Parent := p } a = reviewV1.Overlaps a a).trans
       (reviewV1.Overlaps_refl a),
     (rfl : reviewV2.Overlaps { a with Parent := p } a = reviewV2.Overlaps a a).trans
       (reviewV2.Overlaps_refl_v2 a),
     (rfl : comment.Comment.Overlaps { a with Parent := p } a =
        comment.Comment.Overlaps a a).trans
       (by rw [comment.Overlaps_eq_V1]; exact reviewV1.Overlaps_refl a)⟩⟩

/-- C9, counterexample to the literal claim: an unchanged-repository
second tick is NOT always a no-op.  A resolved remote comment whose
timestamp is shorter than ten characters (here `"1"`) is appended by
the first pass with its timestamp zero-padded to `"0000000001"` by
`serialize`; on the second pass the freshly parsed note carries the
padded timestamp, the strict `Overlaps` check compares timestamps of
resolved comments, and `"1" ≠ "0000000001"`, so the comment is appended
again: both passes append one note each. -/
theorem C9_counterexample :
    (let hashFn : Jval → String := fun _ => "h"
     let stateHashFn : mirror.NotesStore → String :=
       fun ns => String.mk (List.replicate ns.length 'x')
     let reviews : List mirror.PhabReview :=
       [{ firstCommit := some "r",
          loadedComments := [{ Timestamp := "1", Author := "u", Description := "d",
                               Resolved := some true }] }]
     let st0 : mirror.MirrorState :=
       { notes := [((mirror.requestRef, "r"), [Jval.str "req"])] }
     let run1 := mirror.mirrorRepoToReview hashFn stateHashFn reviews st0
     let run2 := mirror.mirrorRepoToReview hashFn stateHashFn reviews run1.1
     run1.2.length = 1 ∧ run2.2.length = 1 : Prop) := by
  exact ⟨rfl, rfl⟩

/-- C9 (amended): a second synchronization pass over an unchanged
repository appends zero new notes, provided (i) every loaded comment
satisfies the `uint32` line-number bound, (ii) every *resolved* loaded
comment already carries the zero-padded canonical timestamp that
`serialize` produces (unresolved comments need no such restriction —
this is exactly the strictness the timestamp zero-padding breaks),
(iii) every open review's first commit is a request-noted revision,
(iv) the repository's initial comment notes parse to comments with
normalization-stable timestamps, as notes written by `Write` always
are, (v) the hash does not collide on the serialized forms of the
comments involved, (vi) the repository fingerprint determines the
comment-note contents, and (vii) the first pass starts from a
fingerprint mismatch so that its refresh actually runs.  Under these
hypotheses every comment harvested on the second pass overlaps a
comment already recorded, exactly as the claim reasons. -/
theorem C9_idempotent_second_tick (hashFn : Jval → String) (stateHashFn : mirror.NotesStore → String)
    (reviews : List mirror.PhabReview) (st0 : mirror.MirrorState)
    (Hfresh : ¬ st0.processedState = some (stateHashFn st0.notes))
    (Hb : ∀ r ∈ reviews, ∀ c ∈ r.loadedComments, comment.uint32Bounded c)
    (Hres : ∀ r ∈ reviews, ∀ c ∈ r.loadedComments,
        c.Resolved.isSome = true → comment.padTs c.Timestamp = c.Timestamp)
    (Hreq : ∀ r ∈ reviews, ∀ rev, r.firstCommit = some rev →
        rev ∈ mirror.ListNotedRevisions st0.notes mirror.requestRef)
    (Hcanon : ∀ rev, ∀ n ∈ mirror.getNotes st0.notes mirror.commentRef rev,
        ∀ e, comment.Parse n = some e → comment.padTs e.Timestamp = e.Timestamp)
    (Hkey : ∀ e f : comment.Comment,
        ((∃ rev, ∃ n ∈ mirror.getNotes st0.notes mirror.commentRef rev,
            comment.Parse n = some e) ∨
          (∃ r ∈ reviews, ∃ c ∈ r.loadedComments, e = comment.padTimestamp c)) →
        ((∃ rev, ∃ n ∈ mirror.getNotes st0.notes mirror.commentRef rev,
            comment.Parse n = some f) ∨
          (∃ r ∈ reviews, ∃ c ∈ r.loadedComments, f = comment.padTimestamp c)) →
        hashFn e.serialize = hashFn f.serialize → e.serialize = f.serialize)
    (Hstate : ∀ ns : mirror.NotesStore, stateHashFn ns = stateHashFn st0.notes →
        ∀ rev, mirror.getNotes ns mirror.commentRef rev =
          mirror.getNotes st0.notes mirror.commentRef rev) :
    (mirror.mirrorRepoToReview hashFn stateHashFn reviews
        (mirror.mirrorRepoToReview hashFn stateHashFn reviews st0).1).2 = [] := by
  have hrefresh1 := refreshState_not_processed hashFn stateHashFn reviews st0 Hfresh
  have hcache : ∀ rev ∈ mirror.ListNotedRevisions st0.notes mirror.requestRef,
      alookup (mirror.refreshState hashFn stateHashFn reviews st0).existingComments rev =
        some (comment.ParseAllValid hashFn
          (mirror.getNotes st0.notes mirror.commentRef rev)) := by
    intro rev hrev
    rw [hrefresh1]
    exact foldl_aupdate_lookup_mem
      (fun revision => comment.ParseAllValid hashFn
        (mirror.getNotes st0.notes mirror.commentRef revision)) _ _ rev hrev
  have hrun1 : mirror.mirrorRepoToReview hashFn stateHashFn reviews st0 =
      reviews.foldl mirror.harvestReview
        (mirror.refreshState hashFn stateHashFn reviews st0, []) := by
    rw [mirrorRepoToReview_eq, hrefresh1]
  obtain ⟨p1, p2, p3, p4, p5, p6⟩ := harvestFold_spec
    (fun c => ∃ r ∈ reviews, c ∈ r.loadedComments)
    (fun rev => comment.ParseAllValid hashFn
      (mirror.getNotes st0.notes mirror.commentRef rev))
    reviews (mirror.refreshState hashFn stateHashFn reviews st0, [])
    (reviews.foldl mirror.harvestReview
      (mirror.refreshState hashFn stateHashFn reviews st0, []))
    (fun r hr rev hrev => hcache rev (Hreq r hr rev hrev))
    (fun r hr c hc => ⟨r, hr, hc⟩)
    rfl
  have hcache1 : ∀ rev ∈ mirror.ListNotedRevisions st0.notes mirror.requestRef,
      alookup (reviews.foldl mirror.harvestReview
          (mirror.refreshState hashFn stateHashFn reviews st0, [])).1.existingComments rev =
        some (comment.ParseAllValid hashFn
          (mirror.getNotes st0.notes mirror.commentRef rev)) := by
    intro rev hrev
    rw [p3]
    exact hcache rev hrev
  have p1' : (reviews.foldl mirror.harvestReview
      (mirror.refreshState hashFn stateHashFn reviews st0, [])).1.processedState =
      some (stateHashFn st0.notes) := by
    rw [p1, hrefresh1]
  have p2' : (reviews.foldl mirror.harvestReview
      (mirror.refreshState hashFn stateHashFn reviews st0, [])).1.openReviews = reviews := by
    rw [p2, hrefresh1]
  have p4' : mirror.ListNotedRevisions (reviews.foldl mirror.harvestReview
      (mirror.refreshState hashFn stateHashFn reviews st0, [])).1.notes mirror.requestRef =
      mirror.ListNotedRevisions st0.notes mirror.requestRef := by
    rw [p4, hrefresh1]
  have p5' : ∀ rev', ∃ A, mirror.getNotes (reviews.foldl mirror.harvestReview
      (mirror.refreshState hashFn stateHashFn reviews st0, [])).1.notes
      mirror.commentRef rev' =
      mirror.getNotes st0.notes mirror.commentRef rev' ++ A ∧
      ∀ n ∈ A, ∃ cc, (∃ r ∈ reviews, cc ∈ r.loadedComments) ∧
        n = comment.Comment.Write cc := by
    intro rev'
    obtain ⟨A, hA, hAP⟩ := p5 rev'
    refine ⟨A, ?_, hAP⟩
    rw [hA, hrefresh1]
  -- shared pieces for the second pass
  have hkeyScoped : ∀ (rev : String) (A : List Jval),
      (∀ n ∈ A, ∃ cc, (∃ r ∈ reviews, cc ∈ r.loadedComments) ∧
          n = comment.Comment.Write cc) →
      ∀ e f : comment.Comment,
        (∃ n ∈ mirror.getNotes st0.notes mirror.commentRef rev ++ A,
            comment.Parse n = some e) →
        (∃ n ∈ mirror.getNotes st0.notes mirror.commentRef rev ++ A,
            comment.Parse n = some f) →
        hashFn e.serialize = hashFn f.serialize → e.serialize = f.serialize := by
    intro rev A hAP
    have hclass : ∀ g : comment.Comment,
        (∃ n ∈ mirror.getNotes st0.notes mirror.commentRef rev ++ A,
            comment.Parse n = some g) →
        ((∃ rev', ∃ n ∈ mirror.getNotes st0.notes mirror.commentRef rev',
            comment.Parse n = some g) ∨
          (∃ r ∈ reviews, ∃ c ∈ r.loadedComments, g = comment.padTimestamp c)) := by
      intro g hg
      obtain ⟨n, hn, hp⟩ := hg
      rcases List.mem_append.mp hn with hn | hn
      · exact Or.inl ⟨rev, n, hn, hp⟩
      · obtain ⟨cc, ⟨r', hr', hcc⟩, rfl⟩ := hAP n hn
        rw [Parse_Write cc (Hb r' hr' cc hcc)] at hp
        exact Or.inr ⟨r', hr', cc, hcc, (Option.some.inj hp).symm⟩
    intro e f he hf
    exact Hkey e f (hclass e he) (hclass f hf)
  have hoverlap : ∀ (rev : String) (A : List Jval),
      mirror.getNotes (reviews.foldl mirror.harvestReview
          (mirror.refreshState hashFn stateHashFn reviews st0, [])).1.notes
          mirror.commentRef rev =
        mirror.getNotes st0.notes mirror.commentRef rev ++ A →
      (∀ n ∈ A, ∃ cc, (∃ r ∈ reviews, cc ∈ r.loadedComments) ∧
          n = comment.Comment.Write cc) →
      ∀ r ∈ reviews, r.firstCommit = some rev → ∀ c ∈ r.loadedComments,
        mirror.hasOverlap c (comment.ParseAllValid hashFn
          (mirror.getNotes (reviews.foldl mirror.harvestReview
            (mirror.refreshState hashFn stateHashFn reviews st0, [])).1.notes
            mirror.commentRef rev)) = true := by
    intro rev A hA hAP r hr hfc c hc
    rw [hA]
    have hdich : mirror.hasOverlap c (comment.ParseAllValid hashFn
          (mirror.getNotes st0.notes mirror.commentRef rev)) = true ∨
        comment.Comment.Write c ∈ mirror.getNotes st0.notes mirror.commentRef rev ++ A := by
      rcases p6 r hr rev hfc c hc with h | h
      · exact Or.inl h
      · rw [hA] at h
        exact Or.inr h
    refine hasOverlap_pav_extend hashFn _ A (Hcanon rev) ?_ (hkeyScoped rev A hAP) c
      (Hb r hr c hc) (Hres r hr c hc) hdich
    intro n hn
    obtain ⟨cc, ⟨r', hr', hcc⟩, hW⟩ := hAP n hn
    exact ⟨cc, ⟨Hb r' hr' cc hcc, Hres r' hr' cc hcc⟩, hW⟩
  -- second pass
  rw [hrun1, mirrorRepoToReview_eq]
  by_cases hguard : (reviews.foldl mirror.harvestReview
      (mirror.refreshState hashFn stateHashFn reviews st0, [])).1.processedState =
      some (stateHashFn (reviews.foldl mirror.harvestReview
        (mirror.refreshState hashFn stateHashFn reviews st0, [])).1.notes)
  · -- fingerprint unchanged: the state refresh is skipped
    rw [refreshState_processed hashFn stateHashFn reviews _ hguard, p2']
    have hsame : ∀ rev, mirror.getNotes (reviews.foldl mirror.harvestReview
          (mirror.refreshState hashFn stateHashFn reviews st0, [])).1.notes
          mirror.commentRef rev =
        mirror.getNotes st0.notes mirror.commentRef rev := by
      apply Hstate
      exact (Option.some.inj (p1'.symm.trans hguard)).symm
    rw [harvestFold_noop reviews _ []
      (fun r hr rev hfc => ⟨comment.ParseAllValid hashFn
          (mirror.getNotes st0.notes mirror.commentRef rev),
        hcache1 rev (Hreq r hr rev hfc),
        fun c hc => by
          have hov := hoverlap rev []
            (by rw [hsame rev, List.append_nil]) (by simp) r hr hfc c hc
          rw [hsame rev] at hov
          exact hov⟩)]
  · -- fingerprint changed: the refresh recomputes every cache entry
    have h2or : (mirror.refreshState hashFn stateHashFn reviews
        (reviews.foldl mirror.harvestReview
          (mirror.refreshState hashFn stateHashFn reviews st0, [])).1).openReviews =
        reviews := by
      rw [refreshState_not_processed hashFn stateHashFn reviews _ hguard]
    have h2ec : ∀ rev ∈ mirror.ListNotedRevisions st0.notes mirror.requestRef,
        alookup (mirror.refreshState hashFn stateHashFn reviews
            (reviews.foldl mirror.harvestReview
              (mirror.refreshState hashFn stateHashFn reviews st0, [])).1).existingComments
            rev =
          some (comment.ParseAllValid hashFn
            (mirror.getNotes (reviews.foldl mirror.harvestReview
              (mirror.refreshState hashFn stateHashFn reviews st0, [])).1.notes
              mirror.commentRef rev)) := by
      intro rev hrev
      rw [refreshState_not_processed hashFn stateHashFn reviews _ hguard]
      exact foldl_aupdate_lookup_mem _ _ _ rev (by rw [p4']; exact hrev)
    rw [h2or, harvestFold_noop reviews _ []
      (fun r hr rev hfc => ⟨comment.ParseAllValid hashFn
          (mirror.getNotes (reviews.foldl mirror.harvestReview
            (mirror.refreshState hashFn stateHashFn reviews st0, [])).1.notes
            mirror.commentRef rev),
        h2ec rev (Hreq r hr rev hfc),
        fun c hc => by
          obtain ⟨A, hA, hAP⟩ := p5' rev
          exact hoverlap rev A hA hAP r hr hfc c hc⟩)]

/-- Witness for the amended C9: a review over one request-noted
revision with a single resolved comment in canonical timestamp form.
The first pass appends that one comment; the second pass appends
nothing. -/
theorem C9_idempotent_second_tick_witness :
    (let hashFn : Jval → String := fun _ => "h"
     let stateHashFn : mirror.NotesStore → String := fun ns =>
       if ns.all (fun e => !(decide (e.1.1 = mirror.commentRef)) || e.2.isEmpty) then "A"
       else "B"
     let c0 : comment.Comment :=
       { Timestamp := "0000000001", Author := "u", Description := "d",
         Resolved := some true }
     let reviews : List mirror.PhabReview :=
       [{ firstCommit := some "r", loadedComments := [c0] }]
     let st0 : mirror.MirrorState :=
       { notes := [((mirror.requestRef, "r"), [Jval.str "req"])] }
     (mirror.mirrorRepoToReview hashFn stateHashFn reviews st0).2.length = 1 ∧
       (mirror.mirrorRepoToReview hashFn stateHashFn reviews
         (mirror.mirrorRepoToReview hashFn stateHashFn reviews st0).1).2 = [] : Prop) := by
  refine ⟨rfl, ?_⟩
  have hnil : ∀ rev, mirror.getNotes
      [((mirror.requestRef, "r"), [Jval.str "req"])] mirror.commentRef rev = [] := by
    apply getNotes_commentRef_nil
    intro e he
    rcases List.mem_cons.mp he with rfl | he
    · exact Or.inl (by decide)
    · exact absurd he (List.not_mem_nil _)
  apply C9_idempotent_second_tick
  · -- Hfresh
    intro h
    exact Option.noConfusion h
  · -- Hb
    intro r hr c hc
    rcases List.mem_cons.mp hr with rfl | hr
    · rcases List.mem_cons.mp hc with rfl | hc
      · trivial
      · exact absurd hc (List.not_mem_nil _)
    · exact absurd hr (List.not_mem_nil _)
  · -- Hres
    intro r hr c hc
    rcases List.mem_cons.mp hr with rfl | hr
    · rcases List.mem_cons.mp hc with rfl | hc
      · intro _
        decide
      · exact absurd hc (List.not_mem_nil _)
    · exact absurd hr (List.not_mem_nil _)
  · -- Hreq
    intro r hr rev hrev
    rcases List.mem_cons.mp hr with rfl | hr
    · have : some "r" = some rev := hrev
      obtain rfl := Option.some.inj this
      decide
    · exact absurd hr (List.not_mem_nil _)
  · -- Hcanon
    intro rev n hn
    rw [hnil rev] at hn
    exact absurd hn (List.not_mem_nil _)
  · -- Hkey
    intro e f he hf _
    have hc : ∀ g : comment.Comment,
        ((∃ rev, ∃ n ∈ mirror.getNotes [((mirror.requestRef, "r"), [Jval.str "req"])] mirror.commentRef rev, comment.Parse n = some g) ∨
          (∃ r ∈ [({ firstCommit := some "r", loadedComments := [{ Timestamp := "0000000001", Author := "u", Description := "d", Resolved := some true }] } : mirror.PhabReview)],
            ∃ c ∈ r.loadedComments, g = comment.padTimestamp c)) →
        g = comment.padTimestamp { Timestamp := "0000000001", Author := "u", Description := "d", Resolved := some true } := by
      intro g hg
      rcases hg with ⟨rev, n, hn, _⟩ | ⟨r, hr, c, hcm, hg⟩
      · rw [hnil rev] at hn
        exact absurd hn (List.not_mem_nil _)
      · rcases List.mem_cons.mp hr with rfl | hr
        · rcases List.mem_cons.mp hcm with rfl | hcm
          · exact hg
          · exact absurd hcm (List.not_mem_nil _)
        · exact absurd hr (List.not_mem_nil _)
    rw [hc e he, hc f hf]
  · -- Hstate
    intro ns hns rev
    rw [hnil rev]
    by_cases hall : ns.all
        (fun e => !(decide (e.1.1 = mirror.commentRef)) || e.2.isEmpty) = true
    · apply getNotes_commentRef_nil ns
      intro e he
      have := (List.all_eq_true.mp hall) e he
      simp only [Bool.or_eq_true, Bool.not_eq_true', decide_eq_false_iff_not,
        List.isEmpty_iff] at this
      exact this
    · exfalso
      have : (if ns.all
            (fun e => !(decide (e.1.1 = mirror.commentRef)) || e.2.isEmpty) = true
          then "A" else "B") = "A" := hns
      rw [if_neg hall] at this
      exact absurd this (by decide)

end GitPhabMirror
